import Mathlib

/-!
# Verification of the AnkifyAI card-generation core (`app/app.py`)

Shallow embedding of the pure core of `app/app.py`: text normalization,
chunking, yield model, JSON-array recovery, usage-ledger validation, mode
normalization, fact deduplication and the two generation pipelines.

Strings are modelled as `List Char` (`Str`), Python ints as `ℤ`/`ℕ`, and
Python floats as `ℚ` (exact arithmetic; `round` is Python's
round-half-to-even).  External AI calls are modelled as response streams
indexed by the number of calls made so far.
-/

set_option autoImplicit false

abbrev Str := List Char

/-- Python's `\s` character class for `str` patterns (Unicode whitespace),
which also backs `str.split()` / `str.strip()`. -/
def isPyWs (c : Char) : Bool :=
  c = ' ' || c = '\t' || c = '\n' || c = '\r' ||
  c.val = 11 || c.val = 12 ||
  (28 ≤ c.val && c.val ≤ 31) || c.val = 0x85 || c.val = 0xa0 ||
  c.val = 0x1680 || (0x2000 ≤ c.val && c.val ≤ 0x200a) ||
  c.val = 0x2028 || c.val = 0x2029 || c.val = 0x202f ||
  c.val = 0x205f || c.val = 0x3000

/-- Python's `\d`, modelled on ASCII decimal digits. -/
def isPyDigit (c : Char) : Bool :=
  '0' ≤ c && c ≤ '9'

/-- Python 3 `round` to an integer: round half to even (banker's rounding). -/
def pyRound (q : ℚ) : ℤ :=
  let f := Int.floor q
  let frac := q - (f : ℚ)
  if frac < 1/2 then f
  else if 1/2 < frac then f + 1
  else if f % 2 = 0 then f else f + 1

/-- Truthiness-style clamp of the yield dial used throughout:
`max(0.0, min(1.0, yield_level))`. -/
def clampYield (y : ℚ) : ℚ := max 0 (min 1 y)

/-! ## `choose_call_size` (app.py lines 562-568) -/

/-- `choose_call_size(yield_level, remaining_overall, remaining_for_chunk)`:
base per-call size from yield, bumped when far from the target, then
clamped by both remaining budgets (and kept at least 1). -/
def choose_call_size (yield_level : ℚ)
    (remaining_overall remaining_for_chunk : ℤ) : ℤ :=
  let base0 := pyRound (12 - 6 * clampYield yield_level)
  let base1 := max 3 (min 16 base0)
  let base2 := if remaining_overall > 100 then min 20 (base1 + 4) else base1
  max 1 (min base2 (min remaining_overall remaining_for_chunk))

/-- Modelled from the spec's formula for `chooseCallSize`'s base bound:
`base = clamp(round(12 − 6·clamp(y,0,1)), 3, 16)`, and `base += 4` capped
at 20 when `remainingOverall > 100`. -/
def specBaseBound (y : ℚ) (remaining_overall : ℤ) : ℤ :=
  let b := max 3 (min 16 (pyRound (12 - 6 * clampYield y)))
  if remaining_overall > 100 then min 20 (b + 4) else b

/-! ## Text normalizer `clean_text` (app.py lines 343-349)

`clean_text` removes bracketed numeric citation markers (`re` pattern
`\[\s*\d+\s*\]`), replaces ` ` by a space, collapses whitespace runs
(`\s+` → a single space) and strips both ends. -/

/-- One substitution pass of `MULTI_SPACE.sub(" ", text)`: the Boolean
argument records whether the previous character was part of a whitespace
run already emitted as a single space. -/
def collapseWsAux : Bool → Str → Str
  | _, [] => []
  | prevWs, c :: rest =>
    if isPyWs c then
      if prevWs then collapseWsAux true rest
      else ' ' :: collapseWsAux true rest
    else c :: collapseWsAux false rest

/-- `MULTI_SPACE.sub(" ", text)` with `MULTI_SPACE = re.compile(r"\s+")`. -/
def collapseWs (s : Str) : Str := collapseWsAux false s

/-- Python `str.strip()`: drop leading and trailing whitespace. -/
def stripWs (s : Str) : Str :=
  ((s.dropWhile isPyWs).reverse.dropWhile isPyWs).reverse

/-- `text.replace(" ", " ")`. -/
def replaceNbsp (s : Str) : Str :=
  s.map (fun c => if c.val = 0xa0 then ' ' else c)

/-- Try to match `\[\s*\d+\s*\]` at the head of the string; on success
return the rest of the string after the match.  (Since whitespace and
digits are disjoint character classes, the regex engine's greedy matching
is equivalent to this deterministic scan.) -/
def matchCitation : Str → Option Str
  | '[' :: rest =>
    let r1 := rest.dropWhile isPyWs
    let ds := r1.takeWhile isPyDigit
    if ds.isEmpty then none
    else
      match (r1.dropWhile isPyDigit).dropWhile isPyWs with
      | ']' :: r3 => some r3
      | _ => none
  | _ => none

/-- `CITATION_BRACKETS.sub("", text)`: left-to-right, non-overlapping
removal of citation markers.  Structural recursion on a fuel equal to the
string length (each step consumes at least one character). -/
def removeCitationsFuel : Nat → Str → Str
  | 0, s => s
  | fuel + 1, s =>
    match s with
    | [] => []
    | c :: rest =>
      match matchCitation (c :: rest) with
      | some r => removeCitationsFuel fuel r
      | none => c :: removeCitationsFuel fuel rest

/-- `CITATION_BRACKETS.sub("", text)` with fuel instantiated sufficiently. -/
def removeCitations (s : Str) : Str := removeCitationsFuel s.length s

/-- `clean_text`: citation removal, then ` ` replacement, then
whitespace collapsing and stripping. -/
def cleanText (text : Str) : Str :=
  stripWs (collapseWs (replaceNbsp (removeCitations text)))

/-! ## Chunker `chunk_by_words` (app.py lines 351-364) -/

/-- Python `str.split()` (no separator): maximal runs of non-whitespace
characters; the first argument accumulates the current word reversed. -/
def pySplitAux : Str → Str → List Str
  | cur, [] => if cur.isEmpty then [] else [cur.reverse]
  | cur, c :: rest =>
    if isPyWs c then
      if cur.isEmpty then pySplitAux [] rest
      else cur.reverse :: pySplitAux [] rest
    else pySplitAux (c :: cur) rest

/-- Python `str.split()`. -/
def pySplit (s : Str) : List Str := pySplitAux [] s

/-- Python `" ".join(words)`. -/
def joinSpace : List Str → Str
  | [] => []
  | [w] => w
  | w :: rest => w ++ ' ' :: joinSpace rest

/-- The chunking loop of `chunk_by_words`: starting at word index `i`,
emit the window `words[i : i+target]` and advance by
`max(1, target - overlap)` while `i < len(words)`.  Fuel-based structural
recursion; each step advances `i` by at least one. -/
def chunksFromFuel (target overlap : Nat) (words : List Str) :
    Nat → Nat → List (List Str)
  | 0, _ => []
  | fuel + 1, i =>
    if i < words.length then
      ((words.drop i).take target) ::
        chunksFromFuel target overlap words fuel (i + max 1 (target - overlap))
    else []

/-- The chunking loop with sufficient fuel. -/
def chunksFrom (words : List Str) (target overlap i : Nat) : List (List Str) :=
  chunksFromFuel target overlap words (words.length - i) i

/-- `chunk_by_words(text, target_words, overlap)`: split the cleaned text
into words, emit overlapping word windows joined by single spaces,
dropping windows whose joined text strips to the empty string. -/
def chunk_by_words (text : Str) (target_words overlap : Nat) : List Str :=
  let words := pySplit (cleanText text)
  if words.isEmpty then []
  else
    (chunksFrom words target_words overlap 0).filterMap (fun w =>
      let ch := joinSpace w
      if (stripWs ch).isEmpty then none else some ch)

/-- Number of word indices shared by the windows `[j*s, j*s+T)` and
`[(j+1)*s, (j+1)*s+T)` of a `W`-word text (both truncated at `W`). -/
def sharedWords (W T s j : Nat) : Nat := min (j * s + T) W - (j + 1) * s

/-- Modelled from the spec's chunker guarantees, stated over the word
windows produced by the chunking loop (`s` is the step
`max(1, T - O)`, `W` the word count): the first window starts at word 0;
window `j` is `words[j*s : j*s+T]`; the windows cover `[0, W)`; and any
two consecutive windows of which the earlier one is a full `T`-word
window share exactly `O` words. -/
def chunkWindowProps (words : List Str) (T O : Nat) : Prop :=
  (chunksFrom words T O 0).get? 0 = some (words.take T) ∧
  (∀ j, j < words.length → j * max 1 (T - O) < words.length →
    (chunksFrom words T O 0).get? j =
      some ((words.drop (j * max 1 (T - O))).take T)) ∧
  (∀ k, k < words.length →
    ∃ j, j < words.length ∧ j * max 1 (T - O) ≤ k ∧
      k < j * max 1 (T - O) + T) ∧
  (∀ j, j < words.length → j * max 1 (T - O) + T ≤ words.length →
    sharedWords words.length T (max 1 (T - O)) j = O)

/-! ## Mode normalization (app.py lines 310-335) -/

/-- Python `str.lower()`, modelled on ASCII case mapping. -/
def pyLower (s : Str) : Str := s.map Char.toLower

def kBasicRecall : Str := ("Basic Recall (Q/A)").toList

def kFillBlank : Str := ("Fill in the Blank").toList

def kMechanism : Str := ("Mechanism (Why/How)").toList

def kScenario : Str := ("Scenario").toList

/-- The `MODE_ALIASES` table, in insertion order. -/
def MODE_ALIASES : List (Str × List Str) :=
  [ (kBasicRecall,
      [("basic recall (q/a)").toList, ("recall").toList, ("basic").toList,
        ("qa").toList, ("q/a").toList]),
    (kFillBlank,
      [("fill in the blank").toList, ("fill-in-the-blank").toList,
        ("cloze").toList]),
    (kMechanism,
      [("mechanism").toList, ("why").toList, ("how").toList,
        ("why/how").toList]),
    (kScenario,
      [("scenario").toList, ("case").toList, ("vignette").toList]) ]

def CANONICAL_MODES : List Str := MODE_ALIASES.map Prod.fst

/-- The inner alias-matching loop of `normalize_modes`: first canonical
mode whose lower-cased name or alias set matches. -/
def matchMode : List (Str × List Str) → Str → Option Str
  | [], _ => none
  | (canon, aliases) :: rest, ml =>
    if ml = pyLower canon ∨ ml ∈ aliases then some canon
    else matchMode rest ml

/-- Per-entry normalization: `(m or "").strip().lower()` matched against
the alias table, defaulting to `"Basic Recall (Q/A)"`. -/
def normalizeOneMode (m : Option Str) : Str :=
  let ml := pyLower (stripWs (match m with | none => [] | some s => s))
  match matchMode MODE_ALIASES ml with
  | some canon => canon
  | none => kBasicRecall

/-- The keep-first deduplication pass at the end of `normalize_modes`
(`seen` set plus `cleaned` output list). -/
def dedupSeen (seen : List Str) : List Str → List Str
  | [] => []
  | m :: rest =>
    if m ∈ seen then dedupSeen seen rest
    else m :: dedupSeen (m :: seen) rest

/-- `normalize_modes(modes_in)`; a `none` entry models Python `None`. -/
def normalize_modes (modes_in : List (Option Str)) : List Str :=
  if modes_in.isEmpty then [kBasicRecall]
  else dedupSeen [] (modes_in.map normalizeOneMode)

/-- Index of the first occurrence of `x` (the list's length when absent);
used to state first-occurrence ordering. -/
def firstIdx (x : Str) : List Str → Nat
  | [] => 0
  | y :: rest => if y = x then 0 else firstIdx x rest + 1

/-! ## Fact normalization and deduplication (app.py 389-392, 645-664) -/

/-- `normalize_fact(f)`: `clean_text(f).lower()` with the regex
`\s*\.\s*$` removed — i.e. when the last non-whitespace character is a
period, drop it together with the surrounding trailing whitespace. -/
def normalize_fact (f : Str) : Str :=
  let t := pyLower (cleanText f)
  match t.reverse.dropWhile isPyWs with
  | '.' :: r => (r.dropWhile isPyWs).reverse
  | _ => t

/-- The fact-accumulation loop of the exhaustive pipeline: strip each
fact text, skip empties, and keep a fact only when its normalized key is
new, threading the seen-key set; returns the retained facts and the
final seen set. -/
def dedupFactsP (seen : List Str) : List Str → List Str × List Str
  | [] => ([], seen)
  | f :: rest =>
    let ftxt := stripWs f
    if ftxt.isEmpty then dedupFactsP seen rest
    else
      let key := normalize_fact ftxt
      if key ∈ seen then dedupFactsP seen rest
      else
        let p := dedupFactsP (key :: seen) rest
        (ftxt :: p.1, p.2)

/-! ## Usage ledger (app.py lines 222-307)

The persisted record is a JSON object; we model it as an association
list of string keys to values.  Only three value shapes matter to the
validation code: ints, strings, and everything else (values that
Python `int()` cannot convert and that differ from any string). -/

inductive PyVal where
  | int (n : ℤ)
  | str (s : Str)
  | other
deriving DecidableEq

abbrev UDict := List (Str × PyVal)

/-- Dictionary lookup (keys are unique in records read from JSON). -/
def dget : UDict → Str → Option PyVal
  | [], _ => none
  | (k', v) :: rest, k => if k' = k then some v else dget rest k

/-- Dictionary assignment `d[k] = v`: update in place, insertion order
preserved; append when the key is absent. -/
def dset : UDict → Str → PyVal → UDict
  | [], k, v => [(k, v)]
  | (k', v') :: rest, k, v =>
    if k' = k then (k, v) :: rest else (k', v') :: dset rest k v

/-- Python `int(str)`: optional surrounding whitespace, optional sign,
one or more ASCII digits. -/
def pyStrToInt (s : Str) : Option ℤ :=
  let t := stripWs s
  let core : Str → Option ℤ := fun ds =>
    if ds ≠ [] ∧ ds.all isPyDigit then
      some (ds.foldl (fun acc c => acc * 10 + ((c.toNat : ℤ) - 48)) 0)
    else none
  match t with
  | '-' :: ds => (core ds).map Neg.neg
  | '+' :: ds => core ds
  | ds => core ds

/-- Python `int(value)` over our value domain; `none` models the
`except` branch. -/
def pyIntCoerce : PyVal → Option ℤ
  | .int n => some n
  | .str s => pyStrToInt s
  | .other => none

def USAGE_SCHEMA_VERSION : ℤ := 1

def DEFAULT_CAP_CARDS_PER_MONTH : ℤ := 50000

def kVersion : Str := ("version").toList

def kMonth : Str := ("month").toList

def kCardsUsed : Str := ("cards_used").toList

def kCap : Str := ("cap").toList

/-- `_usage_defaults()` for the current wall-clock month. -/
def usage_defaults (current_month : Str) : UDict :=
  [(kVersion, .int USAGE_SCHEMA_VERSION), (kMonth, .str current_month),
    (kCardsUsed, .int 0), (kCap, .int DEFAULT_CAP_CARDS_PER_MONTH)]

/-- `{**base, **{k: v for k, v in data.items() if k in base}}`: base's
keys in base's order, with values overridden by `data` where present. -/
def mergeKnown (base d : UDict) : UDict :=
  base.map (fun p => (p.1, (dget d p.1).getD p.2))

/-- `_validate_and_patch_usage(data)`: non-dict input yields the
defaults; otherwise merge known keys over the defaults, apply month
rollover, coerce and clamp the numeric fields, and stamp the schema
version. -/
def _validate_and_patch_usage (data : Option UDict) (current_month : Str) :
    UDict :=
  match data with
  | none => usage_defaults current_month
  | some d =>
    let out0 := mergeKnown (usage_defaults current_month) d
    let out1 :=
      if dget out0 kMonth ≠ some (.str current_month) then
        dset (dset out0 kMonth (.str current_month)) kCardsUsed (.int 0)
      else out0
    let cu :=
      match dget out1 kCardsUsed with
      | some v => (pyIntCoerce v).getD 0
      | none => 0
    let out2 := dset out1 kCardsUsed (.int cu)
    let cap :=
      match dget out2 kCap with
      | some v => (pyIntCoerce v).getD DEFAULT_CAP_CARDS_PER_MONTH
      | none => DEFAULT_CAP_CARDS_PER_MONTH
    let out3 := dset out2 kCap (.int cap)
    let out4 := dset out3 kCardsUsed (.int (max 0 cu))
    let out5 := dset out4 kCap (.int (max 0 cap))
    dset out5 kVersion (.int USAGE_SCHEMA_VERSION)

/-- Python `raw != data` on dictionaries: equality of key-value maps.  -/
def dictBeq (d1 d2 : UDict) : Bool :=
  d1.all (fun p => decide (dget d2 p.1 = some p.2)) &&
    d2.all (fun p => decide (dget d1 p.1 = some p.2))

/-- What `load_usage` finds on disk: no file, an unreadable file
(`json.load` raises, so `raw = {}`), a readable file holding a non-dict
JSON value, or a dict. -/
inductive FileRead where
  | missing
  | unreadable
  | nonDict
  | dict (d : UDict)

/-- `save_usage(data)`: the record that `_save_usage_atomic` persists. -/
def save_usage (data : UDict) (current_month : Str) : UDict :=
  _validate_and_patch_usage (some data) current_month

/-- `load_usage()`: the returned record, paired with whether the run
(re-)persisted the record (missing file, or patched data differing from
the raw read). -/
def load_usage (f : FileRead) (current_month : Str) : UDict × Bool :=
  match f with
  | .missing => (usage_defaults current_month, true)
  | .unreadable =>
    let data := _validate_and_patch_usage (some []) current_month
    (data, !dictBeq [] data)
  | .nonDict =>
    let data := _validate_and_patch_usage none current_month
    (data, true)
  | .dict d =>
    let data := _validate_and_patch_usage (some d) current_month
    (data, !dictBeq d data)

/-- Modelled from the spec of the persisted record (C9): exactly the four
keys `version, month, cards_used, cap` in canonical order, `version`
equal to the schema constant, `month` equal to the current month, and
non-negative integer counters. -/
def usageWellFormedB (d : UDict) (current_month : Str) : Bool :=
  decide (d.map Prod.fst = [kVersion, kMonth, kCardsUsed, kCap]) &&
    decide (dget d kVersion = some (.int USAGE_SCHEMA_VERSION)) &&
    decide (dget d kMonth = some (.str current_month)) &&
    (match dget d kCardsUsed with
      | some (.int n) => decide (0 ≤ n)
      | _ => false) &&
    (match dget d kCap with
      | some (.int n) => decide (0 ≤ n)
      | _ => false)

/-! ## JSON parsing: `json.loads` and `parse_json_array` (app.py 379-386)

`json.loads` is the Python standard library's strict JSON parser; the
repository calls it through `parse_json_array`, which falls back to
re-parsing the slice between the first `[` and the last `]`.  We embed
a strict JSON grammar (matching `json.loads`'s default mode, including
the `NaN`/`Infinity` extensions): values parse to a `Json` tree whose
string and number payloads keep the raw lexeme (their decoded values are
irrelevant to the claims), and a parse fails on trailing data.  `none`
models a raised `JSONDecodeError`. -/

inductive Json where
  | null
  | bool (b : Bool)
  | num (lexeme : Str)
  | str (raw : Str)
  | arr (xs : List Json)
  | obj (kvs : List (Str × Json))

def Json.isArr : Json → Bool
  | .arr _ => true
  | _ => false

def Json.boolVal : Json → Option Bool
  | .bool b => some b
  | _ => none

/-- JSON whitespace (`json.decoder.WHITESPACE`). -/
def jsWs (c : Char) : Bool := c = ' ' || c = '\t' || c = '\n' || c = '\r'

def skipWs (s : Str) : Str := s.dropWhile jsWs

def isHexDigit (c : Char) : Bool :=
  isPyDigit c || ('a' ≤ c && c ≤ 'f') || ('A' ≤ c && c ≤ 'F')

/-- Parse a JSON string body (after the opening quote) in strict mode:
raw control characters are rejected, escapes are validated; returns the
raw body and the rest after the closing quote. -/
def parseStringBody : Str → Option (Str × Str)
  | [] => none
  | c :: rest =>
    if c = '"' then some (([] : Str), rest)
    else if c = '\\' then
      match rest with
      | [] => none
      | e :: rest2 =>
        if e = 'u' then
          match rest2 with
          | h1 :: h2 :: h3 :: h4 :: rest3 =>
            if isHexDigit h1 && isHexDigit h2 && isHexDigit h3 &&
                isHexDigit h4 then
              (parseStringBody rest3).map
                (fun p => (c :: e :: h1 :: h2 :: h3 :: h4 :: p.1, p.2))
            else none
          | _ => none
        else if e = '"' ∨ e = '\\' ∨ e = '/' ∨ e = 'b' ∨ e = 'f' ∨
            e = 'n' ∨ e = 'r' ∨ e = 't' then
          (parseStringBody rest2).map (fun p => (c :: e :: p.1, p.2))
        else none
    else if c.val < 32 then none
    else (parseStringBody rest).map (fun p => (c :: p.1, p.2))

/-- Integer part of a JSON number: `0`, or a nonzero digit followed by
digits (leading zeros rejected). -/
def parseIntPart : Str → Option (Str × Str)
  | '0' :: r => some (([('0' : Char)] : Str), r)
  | c :: r =>
    if isPyDigit c then some (c :: r.takeWhile isPyDigit, r.dropWhile isPyDigit)
    else none
  | [] => none

/-- Optional fraction part `.digits`; consumed only when well-formed. -/
def parseFracPart (s : Str) : Str × Str :=
  match s with
  | '.' :: r =>
    let ds := r.takeWhile isPyDigit
    if ds.isEmpty then (([] : Str), s)
    else ('.' :: ds, r.dropWhile isPyDigit)
  | _ => (([] : Str), s)

/-- Optional exponent part `[eE][+-]?digits`; consumed only when
well-formed. -/
def parseExpPart (s : Str) : Str × Str :=
  match s with
  | c :: r =>
    if c = 'e' ∨ c = 'E' then
      match r with
      | sgn :: r2 =>
        if sgn = '+' ∨ sgn = '-' then
          let ds := r2.takeWhile isPyDigit
          if ds.isEmpty then (([] : Str), s)
          else (c :: sgn :: ds, r2.dropWhile isPyDigit)
        else
          let ds := r.takeWhile isPyDigit
          if ds.isEmpty then (([] : Str), s)
          else (c :: ds, r.dropWhile isPyDigit)
      | [] => (([] : Str), s)
    else (([] : Str), s)
  | [] => (([] : Str), s)

/-- A JSON number lexeme `-?(0|[1-9]\d*)(\.\d+)?([eE][+-]?\d+)?`. -/
def parseNumber (s : Str) : Option (Str × Str) :=
  let go := fun (t : Str) (sign : Str) =>
    match parseIntPart t with
    | none => none
    | some (ip, r1) =>
      let fp := parseFracPart r1
      let ep := parseExpPart fp.2
      some ((sign ++ ip ++ fp.1 ++ ep.1 : Str), ep.2)
  match s with
  | '-' :: r => go r [('-' : Char)]
  | _ => go s []

/-! Recursive-descent JSON value parser.  The fuel decreases on every
mutual call; a fuel of `2·length + 4` dominates the call depth because
every nested value or separator consumes at least one character, so the
instantiation in `json_loads` below behaves as the unbounded parser. -/
mutual

def parseValue : Nat → Str → Option (Json × Str)
  | 0, _ => none
  | fuel + 1, s =>
    match s with
    | [] => none
    | '{' :: r =>
      (parseMembers fuel (skipWs r) true).map (fun p => (Json.obj p.1, p.2))
    | '[' :: r =>
      (parseElems fuel (skipWs r) true).map (fun p => (Json.arr p.1, p.2))
    | '"' :: r => (parseStringBody r).map (fun p => (Json.str p.1, p.2))
    | 't' :: 'r' :: 'u' :: 'e' :: r => some (Json.bool true, r)
    | 'f' :: 'a' :: 'l' :: 's' :: 'e' :: r => some (Json.bool false, r)
    | 'n' :: 'u' :: 'l' :: 'l' :: r => some (Json.null, r)
    | 'N' :: 'a' :: 'N' :: r => some (Json.num (("NaN").toList), r)
    | 'I' :: 'n' :: 'f' :: 'i' :: 'n' :: 'i' :: 't' :: 'y' :: r =>
      some (Json.num (("Infinity").toList), r)
    | '-' :: 'I' :: 'n' :: 'f' :: 'i' :: 'n' :: 'i' :: 't' :: 'y' :: r =>
      some (Json.num (("-Infinity").toList), r)
    | s => (parseNumber s).map (fun p => (Json.num p.1, p.2))

def parseElems : Nat → Str → Bool → Option (List Json × Str)
  | 0, _, _ => none
  | fuel + 1, s, first =>
    match s, first with
    | ']' :: r, true => some (([] : List Json), r)
    | s, _ =>
      match parseValue fuel s with
      | none => none
      | some (v, rest) =>
        match skipWs rest with
        | ']' :: r => some ([v], r)
        | ',' :: r =>
          match parseElems fuel (skipWs r) false with
          | none => none
          | some (vs, r2) => some (v :: vs, r2)
        | _ => none

def parseMembers : Nat → Str → Bool → Option (List (Str × Json) × Str)
  | 0, _, _ => none
  | fuel + 1, s, first =>
    match s, first with
    | '}' :: r, true => some (([] : List (Str × Json)), r)
    | '"' :: r, _ =>
      match parseStringBody r with
      | none => none
      | some (key, rest) =>
        match skipWs rest with
        | ':' :: r2 =>
          match parseValue fuel (skipWs r2) with
          | none => none
          | some (v, rest2) =>
            match skipWs rest2 with
            | '}' :: r3 => some ([(key, v)], r3)
            | ',' :: r3 =>
              match parseMembers fuel (skipWs r3) false with
              | none => none
              | some (kvs, r4) => some ((key, v) :: kvs, r4)
            | _ => none
        | _ => none
    | _, _ => none

end

/-- `json.loads(s)`: parse one value, allowing surrounding whitespace;
trailing data is an error. -/
def json_loads (s : Str) : Option Json :=
  match parseValue (2 * s.length + 4) (skipWs s) with
  | some (v, rest) => if (skipWs rest).isEmpty then some v else none
  | none => none

/-- Index of the first occurrence of a character, if any. -/
def findIdxFirst (c : Char) : Str → Option Nat
  | [] => none
  | x :: rest =>
    if x = c then some 0 else (findIdxFirst c rest).map Nat.succ

/-- Python `s.find(c)`: first index or `-1`. -/
def pyFind (s : Str) (c : Char) : ℤ :=
  match findIdxFirst c s with
  | some i => (i : ℤ)
  | none => -1

/-- Python `s.rfind(c)`: last index or `-1`. -/
def pyRfind (s : Str) (c : Char) : ℤ :=
  match findIdxFirst c s.reverse with
  | some i => (s.length : ℤ) - 1 - (i : ℤ)
  | none => -1

/-- `parse_json_array(s)`: strict parse, then bracket-slice recovery
(`s[s.find('[') : s.rfind(']')+1]`); `none` models the re-raised
exception. -/
def parse_json_array (s : Str) : Option Json :=
  match json_loads s with
  | some v => some v
  | none =>
    let start := pyFind s '['
    let stop := pyRfind s ']' + 1
    if start ≠ -1 ∧ stop > start then
      json_loads ((s.drop start.toNat).take (stop - start).toNat)
    else none

/-! ## Yield model (app.py lines 366-376) -/

/-- `cards_per_1000_words(yield_level)`:
`6 + (1 − clamp(y)) · (18 − 6)`. -/
def cards_per_1000_words (yield_level : ℚ) : ℚ :=
  6 + (1 - clampYield yield_level) * (18 - 6)

/-- `estimate_total_cards(raw_text, approx_cards, yield_level)`:
`max(approx_cards, round(words/1000 · density))`. -/
def estimate_total_cards (raw_text : Str) (approx_cards : ℤ)
    (yield_level : ℚ) : ℤ :=
  let total_words := (pySplit (cleanText raw_text)).length
  max approx_cards
    (pyRound ((total_words : ℚ) / 1000 * cards_per_1000_words yield_level))

/-! ## Generation pipelines and `build_apkg` (app.py lines 571-802)

The two pipelines are embedded with the external completion service
modelled as response streams indexed by the number of calls made so far:
`factResponses k` (resp. `cardResponses k`) is the parsed JSON array of
the `k`-th call, already shaped into typed items.  A successful run is
modelled; a raised `requests`/parse exception aborts the run with the
state committed so far, which is a prefix of some modelled run, so the
invariants proved below cover it as well. -/

structure Card where
  front : Str
  back : Str
  mode : Str
deriving DecidableEq

/-- A parsed item of a card-generation response: `front`/`back`/`mode`
string fields (a missing field models as `""`).  `none` in the stream
models a non-dict item, which the cleaners skip. -/
structure RawItem where
  front : Str
  back : Str
  mode : Str
deriving DecidableEq

/-- A parsed item of a fact-extraction response: a plain string, an
object with a `fact` field, or anything else (dropped). -/
inductive FactItem where
  | str (s : Str)
  | obj (fact : Str)
  | other
deriving DecidableEq

/-- The item cleaning inside `ai_extract_facts`: accept strings or
objects with a `fact` field, strip, and drop empties. -/
def parseFactItem : FactItem → Option Str
  | .str s => if (stripWs s).isEmpty then none else some (stripWs s)
  | .obj f => if (stripWs f).isEmpty then none else some (stripWs f)
  | .other => none

/-- `normalize_modes([m])[0]`: the single-entry mode normalization used
on each returned card's `mode` field. -/
def normalizeModeField (m : Str) : Str :=
  (normalize_modes [some m]).headD kBasicRecall

/-- The response cleaning of `ai_cards_from_facts`: skip non-dicts,
strip `front`/`back`, normalize the mode, and keep cards with nonempty
front and back (no per-call dedup, no truncation). -/
def cleanFromFacts (items : List (Option RawItem)) : List Card :=
  items.filterMap (fun it? =>
    match it? with
    | none => none
    | some it =>
      if (stripWs it.front).isEmpty ∨ (stripWs it.back).isEmpty then none
      else some ⟨stripWs it.front, stripWs it.back,
        normalizeModeField it.mode⟩)

/-- The response cleaning of `ai_generate_batch`: skip non-dicts and
empty fronts/backs, deduplicate by the exact `(front, back)` pair within
the call, and stop once `n` cards are accepted. -/
def cleanGenBatchGo (n : Nat) :
    List (Str × Str) → List Card → List (Option RawItem) → List Card
  | _, acc, [] => acc
  | seen, acc, it? :: rest =>
    match it? with
    | none => cleanGenBatchGo n seen acc rest
    | some it =>
      let front := stripWs it.front
      let back := stripWs it.back
      if front.isEmpty ∨ back.isEmpty then cleanGenBatchGo n seen acc rest
      else if (front, back) ∈ seen then cleanGenBatchGo n seen acc rest
      else
        let acc2 := acc ++ [⟨front, back, normalizeModeField (stripWs it.mode)⟩]
        if n ≤ acc2.length then acc2
        else cleanGenBatchGo n ((front, back) :: seen) acc2 rest

/-- `ai_generate_batch`'s cleaned output for a call asking for `n` cards. -/
def ai_generate_batch_clean (n : Nat) (items : List (Option RawItem)) :
    List Card :=
  cleanGenBatchGo n [] [] items

/-- The mutable state of one `build_apkg` run: the deck, the number of
cards added, the ledger's `cards_used`, the history of debit amounts
(one entry per `save_usage` call from a batch), and the number of
external completion calls made. -/
structure RunState where
  deck : List Card
  cards_added : Nat
  usage : ℤ
  saves : List Nat
  calls : Nat
deriving DecidableEq

def initState (used0 : ℤ) : RunState := ⟨[], 0, used0, [], 0⟩

/-- The shared per-batch card loop: for each card, stop when the cap is
reached, skip cards with empty front or back, otherwise add the card to
the deck; returns the new deck and the number actually added. -/
def addLoop (limit added : Nat) :
    List Card → List Card → Nat → (List Card × Nat)
  | deck, [], acc => (deck, acc)
  | deck, c :: rest, acc =>
    if limit ≤ added + acc then (deck, acc)
    else if c.front.isEmpty ∨ c.back.isEmpty then
      addLoop limit added deck rest acc
    else addLoop limit added (deck ++ [c]) rest (acc + 1)

/-- Process one batch: run the card loop, then — exactly when at least
one card was accepted — debit the ledger by the accepted count and
record the save.  Returns the new state and the accepted count. -/
def commitBatch (limit : Nat) (st : RunState) (batch : List Card) :
    RunState × Nat :=
  let p := addLoop limit st.cards_added st.deck batch 0
  let st2 := { st with deck := p.1, cards_added := st.cards_added + p.2 }
  if 0 < p.2 then
    ({ st2 with usage := st2.usage + (p.2 : ℤ), saves := st2.saves ++ [p.2] },
      p.2)
  else (st2, p.2)

/-- The fact-extraction phase of the exhaustive pipeline: one external
call per chunk, cleaning and deduplicating into the global fact list
with the carried seen-key set. -/
def extractChunks (factResponses : Nat → List FactItem) :
    Nat → List Str → List Str → RunState → (List Str × List Str × RunState)
  | 0, facts, seen, st => (facts, seen, st)
  | k + 1, facts, seen, st =>
    extractChunks factResponses k
      (facts ++ (dedupFactsP seen
        ((factResponses st.calls).filterMap parseFactItem)).1)
      (dedupFactsP seen ((factResponses st.calls).filterMap parseFactItem)).2
      { st with calls := st.calls + 1 }

/-- The fact→card phase of the exhaustive pipeline: batches of 50 facts
while `i < allowed_total`, each batch committed and debited. -/
def exhaustiveLoop (cardResponses : Nat → List (Option RawItem))
    (allowed_total : Nat) (i : Nat) (st : RunState) : RunState :=
  if h : i < allowed_total then
    exhaustiveLoop cardResponses allowed_total (i + 50)
      (commitBatch allowed_total { st with calls := st.calls + 1 }
        (cleanFromFacts (cardResponses st.calls))).1
  else st
termination_by allowed_total - i
decreasing_by omega

/-- One adaptive call of the balanced pipeline's per-chunk loop:
`choose_call_size`, clean the response, commit the batch. -/
def chunkCall (cardResponses : Nat → List (Option RawItem)) (y : ℚ)
    (total tfc : Nat) (produced : Nat) (st : RunState) : RunState × Nat :=
  commitBatch total { st with calls := st.calls + 1 }
    (ai_generate_batch_clean
      (choose_call_size y ((total : ℤ) - (st.cards_added : ℤ))
        ((tfc : ℤ) - (produced : ℤ))).toNat
      (cardResponses st.calls))

/-- The balanced pipeline's inner per-chunk loop: keep calling with an
adaptive batch size until the chunk's target or the overall target is
met, aborting the chunk when a call adds nothing. -/
def chunkLoop (cardResponses : Nat → List (Option RawItem)) (y : ℚ)
    (total tfc : Nat) (produced : Nat) (st : RunState) : RunState :=
  if h : produced < tfc ∧ st.cards_added < total then
    if hacc : 0 < (chunkCall cardResponses y total tfc produced st).2 then
      chunkLoop cardResponses y total tfc
        (produced + (chunkCall cardResponses y total tfc produced st).2)
        (chunkCall cardResponses y total tfc produced st).1
    else (chunkCall cardResponses y total tfc produced st).1
  else st
termination_by tfc - produced
decreasing_by
  have h1 : produced < tfc := h.1
  omega

/-- The balanced pipeline's first phase: the per-chunk loop over each
chunk's density target, in source order. -/
def balancedChunks (cardResponses : Nat → List (Option RawItem)) (y : ℚ)
    (total : Nat) : List Nat → RunState → RunState
  | [], st => st
  | t :: rest, st =>
    balancedChunks cardResponses y total rest
      (chunkLoop cardResponses y total t 0 st)

/-- One sweep call: both remaining budgets are the overall remainder. -/
def sweepCall (cardResponses : Nat → List (Option RawItem)) (y : ℚ)
    (total : Nat) (st : RunState) : RunState × Nat :=
  commitBatch total { st with calls := st.calls + 1 }
    (ai_generate_batch_clean
      (choose_call_size y ((total : ℤ) - (st.cards_added : ℤ))
        ((total : ℤ) - (st.cards_added : ℤ))).toNat
      (cardResponses st.calls))

/-- One pass of the round-robin sweep over the chunks (the `Nat` counts
the chunks left in this pass); the Boolean records whether any batch of
the pass accepted a card. -/
def sweepPass (cardResponses : Nat → List (Option RawItem)) (y : ℚ)
    (total : Nat) : Nat → RunState → Bool → RunState × Bool
  | 0, st, prog => (st, prog)
  | k + 1, st, prog =>
    if st.cards_added < total then
      sweepPass cardResponses y total k (sweepCall cardResponses y total st).1
        (prog || decide (0 < (sweepCall cardResponses y total st).2))
    else (st, prog)

/-- The sweep's outer `while` loop, with fuel: each continuing iteration
made progress, i.e. accepted at least one card, so `total + 1` fuel
dominates the iteration count (see `sweepLoopFuel_sufficient`). -/
def sweepLoopFuel (cardResponses : Nat → List (Option RawItem)) (y : ℚ)
    (total nchunks : Nat) : Nat → RunState → RunState
  | 0, st => st
  | fuel + 1, st =>
    if st.cards_added < total then
      if (sweepPass cardResponses y total nchunks st false).2 then
        sweepLoopFuel cardResponses y total nchunks fuel
          (sweepPass cardResponses y total nchunks st false).1
      else (sweepPass cardResponses y total nchunks st false).1
    else st

/-- The round-robin sweep phase of the balanced pipeline. -/
def sweepLoop (cardResponses : Nat → List (Option RawItem)) (y : ℚ)
    (total nchunks : Nat) (st : RunState) : RunState :=
  sweepLoopFuel cardResponses y total nchunks (total + 1) st

/-- Per-chunk card targets of the balanced pipeline:
`max(1, round(words/1000 · density))`. -/
def chunk_targets (chunks : List Str) (y : ℚ) : List Nat :=
  chunks.map (fun c =>
    (max 1 (pyRound ((((pySplit (cleanText c)).length : ℚ)) / 1000 *
      cards_per_1000_words y))).toNat)

/-- The float threshold `0.0 + 1e-9` selecting the exhaustive pipeline. -/
def YIELD_EPS : ℚ := 1 / 1000000000

inductive BuildOutcome where
  | ok
  | emailRequired
  | subscriptionInactive
  | missingKey
  | quotaReached
  | noRemainingQuota
  | extractionFailedNoFacts
  | noCardsGenerated
deriving DecidableEq

/-- The `build_apkg` handler: gating (email, subscription, credential,
monthly cap), then the exhaustive pipeline (`yield ≤ 1e-9`) or the
balanced pipeline, returning the outcome and the final run state. -/
def build_apkg_run (email : Str) (subActive keyPresent : Bool)
    (usageCap usageUsed : ℤ) (text : Str) (yield_level : ℚ)
    (approx_cards wpc : ℤ)
    (factResponses : Nat → List FactItem)
    (cardResponses : Nat → List (Option RawItem)) :
    BuildOutcome × RunState :=
  if email.isEmpty then (.emailRequired, initState usageUsed)
  else if ¬subActive then (.subscriptionInactive, initState usageUsed)
  else if ¬keyPresent then (.missingKey, initState usageUsed)
  else
    let remaining_cap : ℤ := max 0 (usageCap - usageUsed)
    if remaining_cap ≤ 0 then (.quotaReached, initState usageUsed)
    else
      let words_chunk := max 300 wpc
      if yield_level ≤ YIELD_EPS then
        let chunks := chunk_by_words text words_chunk.toNat 120
        let e := extractChunks factResponses chunks.length [] []
          (initState usageUsed)
        if e.1.isEmpty then (.extractionFailedNoFacts, e.2.2)
        else
          let allowed_total := min e.1.length remaining_cap.toNat
          let st := exhaustiveLoop cardResponses allowed_total 0 e.2.2
          if st.cards_added = 0 then (.noCardsGenerated, st) else (.ok, st)
      else
        let dynamic_total := estimate_total_cards text approx_cards yield_level
        let target : ℤ := min dynamic_total remaining_cap
        if target ≤ 0 then (.noRemainingQuota, initState usageUsed)
        else
          let chunks := chunk_by_words text words_chunk.toNat 120
          let st1 := balancedChunks cardResponses yield_level target.toNat
            (chunk_targets chunks yield_level) (initState usageUsed)
          let st2 := sweepLoop cardResponses yield_level target.toNat
            chunks.length st1
          if st2.cards_added = 0 then (.noCardsGenerated, st2) else (.ok, st2)

/-- The ledger-accounting invariant of a run state: the ledger equals
its starting value plus the cards actually added, every recorded debit
was for at least one card, and the debits sum to exactly the cards
added (so the ledger is debited incrementally and never pre-debited). -/
def ledgerOK (used0 : ℤ) (st : RunState) : Prop :=
  st.usage = used0 + (st.cards_added : ℤ) ∧
    st.saves.sum = st.cards_added ∧
    st.saves.all (fun d => decide (0 < d)) = true

/-- The run-state invariant: the cards added never exceed the limit, and
the ledger accounting holds. -/
def stInv (used0 : ℤ) (limit : Nat) (st : RunState) : Prop :=
  st.cards_added ≤ limit ∧ ledgerOK used0 st

/-! ## Theorems: C2 — `choose_call_size` -/

/-- C2 counterexample: the claim quantifies over all integer arguments, but
at `yield = 0`, `remainingOverall = 0`, `remainingForChunk = 5` the code
returns `max(1, min(base, 0, 5)) = 1`, which is not
`min(base, 0, 5) = 0` and exceeds the remaining-overall bound `0`. -/
theorem choose_call_size_claim_fails_at_zero_budget :
    choose_call_size 0 0 5 = 1 ∧
      ¬ choose_call_size 0 0 5 ≤ 0 ∧
      min (specBaseBound 0 0) (min 0 5) = 0 := by
  have h100 : ¬ ((0:ℤ) > 100) := by decide
  have h1 : choose_call_size 0 0 5 = 1 := by
    simp only [choose_call_size, h100, if_false]
    generalize pyRound (12 - 6 * clampYield 0) = b
    omega
  have h2 : min (specBaseBound 0 0) (min 0 5) = 0 := by
    simp only [specBaseBound, h100, if_false]
    generalize pyRound (12 - 6 * clampYield 0) = b
    omega
  exact ⟨h1, by omega, h2⟩

/-- C2 (amended): whenever both remaining budgets are at least 1 — which is
the only way the orchestrator ever calls it — `choose_call_size` equals
`min(base, remainingOverall, remainingForChunk)` where `base` is the
spec's clamped/bumped base, its output is at least 1, and it never
exceeds either remaining bound nor the base bound. -/
theorem choose_call_size_spec (y : ℚ) (ro rc : ℤ)
    (hro : 1 ≤ ro) (hrc : 1 ≤ rc) :
    choose_call_size y ro rc = min (specBaseBound y ro) (min ro rc) ∧
      1 ≤ choose_call_size y ro rc ∧
      choose_call_size y ro rc ≤ ro ∧
      choose_call_size y ro rc ≤ rc ∧
      choose_call_size y ro rc ≤ specBaseBound y ro := by
  simp only [choose_call_size, specBaseBound]
  generalize pyRound (12 - 6 * clampYield y) = b
  split_ifs <;> omega

/-- Witness for C2's amended theorem at `y = 1/2`, `ro = 5`, `rc = 3`. -/
theorem choose_call_size_spec_witness :
    ((1:ℤ) ≤ 5 ∧ (1:ℤ) ≤ 3) ∧
      (choose_call_size (1/2) 5 3 =
          min (specBaseBound (1/2) 5) (min 5 3) ∧
        1 ≤ choose_call_size (1/2) 5 3 ∧
        choose_call_size (1/2) 5 3 ≤ 5 ∧
        choose_call_size (1/2) 5 3 ≤ 3 ∧
        choose_call_size (1/2) 5 3 ≤ specBaseBound (1/2) 5) :=
  ⟨by decide, choose_call_size_spec (1/2) 5 3 (by decide) (by decide)⟩

/-! ## Theorems: C4 — `clean_text` idempotence -/

theorem collapseWsAux_mem_ws : ∀ (b : Bool) (s : Str) (c : Char),
    c ∈ collapseWsAux b s → isPyWs c = true → c = ' ' := by
  intro b s
  induction s generalizing b with
  | nil => intro c hc; simp [collapseWsAux] at hc
  | cons a rest ih =>
    intro c hc hws
    by_cases ha : isPyWs a = true
    · cases b with
      | true =>
        simp only [collapseWsAux, ha, if_true] at hc
        exact ih true c hc hws
      | false =>
        simp only [collapseWsAux, ha, if_true] at hc
        rcases List.mem_cons.mp hc with h | h
        · exact h
        · exact ih true c h hws
    · simp only [collapseWsAux, ha, if_false] at hc
      rcases List.mem_cons.mp hc with h | h
      · subst h; exact absurd hws ha
      · exact ih false c h hws

theorem collapseWsAux_true_head : ∀ (s : Str) (c : Char),
    (collapseWsAux true s).head? = some c → isPyWs c = false := by
  intro s
  induction s with
  | nil => intro c hc; simp [collapseWsAux] at hc
  | cons a rest ih =>
    intro c hc
    by_cases ha : isPyWs a = true
    · simp only [collapseWsAux, ha, if_true] at hc
      exact ih c hc
    · simp only [collapseWsAux, ha, if_false, List.head?_cons] at hc
      cases hc
      exact Bool.eq_false_iff.mpr ha

theorem collapseWsAux_chain' : ∀ (b : Bool) (s : Str),
    List.Chain' (fun x y => isPyWs x = false ∨ isPyWs y = false)
      (collapseWsAux b s) := by
  intro b s
  induction s generalizing b with
  | nil => simp [collapseWsAux]
  | cons a rest ih =>
    by_cases ha : isPyWs a = true
    · cases b with
      | true => simpa only [collapseWsAux, ha, if_true] using ih true
      | false =>
        simp only [collapseWsAux, ha, if_true]
        refine List.chain'_cons'.mpr ⟨?_, ih true⟩
        intro y hy
        exact Or.inr (collapseWsAux_true_head rest y hy)
    · simp only [collapseWsAux, ha, if_false]
      refine List.chain'_cons'.mpr ⟨?_, ih false⟩
      intro y _
      exact Or.inl (Bool.eq_false_iff.mpr ha)

theorem collapseWsAux_true_eq_false (s : Str)
    (h : ∀ c, s.head? = some c → isPyWs c = false) :
    collapseWsAux true s = collapseWsAux false s := by
  cases s with
  | nil => rfl
  | cons a rest =>
    have ha := h a rfl
    simp [collapseWsAux, ha]

theorem collapseWsAux_false_id : ∀ (s : Str),
    (∀ c ∈ s, isPyWs c = true → c = ' ') →
    List.Chain' (fun x y => isPyWs x = false ∨ isPyWs y = false) s →
    collapseWsAux false s = s := by
  intro s
  induction s with
  | nil => intro _ _; rfl
  | cons a rest ih =>
    intro hmem hch
    by_cases ha : isPyWs a = true
    · have haSp : a = ' ' := hmem a (List.mem_cons_self a rest) ha
      simp only [collapseWsAux, ha, if_true]
      cases rest with
      | nil => simp [collapseWsAux, haSp]
      | cons d r2 =>
        have hR := (List.chain'_cons.mp hch).1
        have hd : isPyWs d = false := by
          rcases hR with h | h
          · rw [ha] at h; cases h
          · exact h
        have h1 : collapseWsAux true (d :: r2) = collapseWsAux false (d :: r2) :=
          collapseWsAux_true_eq_false _ (by intro c hc; cases hc; exact hd)
        have h2 : collapseWsAux false (d :: r2) = d :: r2 :=
          ih (fun c hc => hmem c (List.mem_cons_of_mem _ hc)) (List.chain'_cons.mp hch).2
        simp [h1, h2, haSp]
    · simp only [collapseWsAux, ha, if_false]
      have h2 : collapseWsAux false rest = rest :=
        ih (fun c hc => hmem c (List.mem_cons_of_mem _ hc)) hch.tail
      simp [h2]

theorem chain'_dropWhile {R : Char → Char → Prop} (p : Char → Bool) :
    ∀ (l : Str), List.Chain' R l → List.Chain' R (l.dropWhile p) := by
  intro l
  induction l with
  | nil => intro h; simp
  | cons a rest ih =>
    intro h
    by_cases ha : p a = true
    · rw [List.dropWhile_cons_of_pos ha]
      exact ih h.tail
    · rw [List.dropWhile_cons_of_neg ha]
      exact h

theorem head?_dropWhile (p : Char → Bool) :
    ∀ (l : Str) (c : Char), (l.dropWhile p).head? = some c → p c = false := by
  intro l
  induction l with
  | nil => intro c hc; simp at hc
  | cons a rest ih =>
    intro c hc
    by_cases ha : p a = true
    · rw [List.dropWhile_cons_of_pos ha] at hc
      exact ih c hc
    · rw [List.dropWhile_cons_of_neg ha, List.head?_cons] at hc
      cases hc
      exact Bool.eq_false_iff.mpr ha

theorem dropWhile_eq_self_of_head (p : Char → Bool) (l : Str)
    (h : ∀ c, l.head? = some c → p c = false) : l.dropWhile p = l := by
  cases l with
  | nil => rfl
  | cons a rest => exact List.dropWhile_cons_of_neg (by simp [h a rfl])

theorem getLast?_dropWhile (p : Char → Bool) (l : Str)
    (h : l.dropWhile p ≠ []) : (l.dropWhile p).getLast? = l.getLast? := by
  obtain ⟨t, ht⟩ := List.dropWhile_suffix (l := l) p
  conv_rhs => rw [← ht]
  exact (List.getLast?_append_of_ne_nil t h).symm

theorem stripWs_head (s : Str) (c : Char)
    (hc : (stripWs s).head? = some c) : isPyWs c = false := by
  unfold stripWs at hc
  rw [List.head?_reverse] at hc
  have hne : (s.dropWhile isPyWs).reverse.dropWhile isPyWs ≠ [] := by
    intro h; rw [h] at hc; simp at hc
  rw [getLast?_dropWhile isPyWs _ hne, List.getLast?_reverse] at hc
  exact head?_dropWhile isPyWs s c hc

theorem stripWs_reverse_head (s : Str) (c : Char)
    (hc : (stripWs s).reverse.head? = some c) : isPyWs c = false := by
  unfold stripWs at hc
  rw [List.reverse_reverse] at hc
  exact head?_dropWhile isPyWs _ c hc

theorem stripWs_eq_self (l : Str)
    (h1 : ∀ c, l.head? = some c → isPyWs c = false)
    (h2 : ∀ c, l.reverse.head? = some c → isPyWs c = false) :
    stripWs l = l := by
  unfold stripWs
  rw [dropWhile_eq_self_of_head isPyWs l h1,
    dropWhile_eq_self_of_head isPyWs l.reverse h2, List.reverse_reverse]

theorem mem_stripWs (l : Str) (c : Char) (h : c ∈ stripWs l) : c ∈ l := by
  unfold stripWs at h
  rw [List.mem_reverse] at h
  have h2 := (List.dropWhile_suffix (p := isPyWs)).sublist.mem h
  rw [List.mem_reverse] at h2
  exact (List.dropWhile_suffix (p := isPyWs)).sublist.mem h2

theorem chain'_stripWs (l : Str)
    (h : List.Chain' (fun x y => isPyWs x = false ∨ isPyWs y = false) l) :
    List.Chain' (fun x y => isPyWs x = false ∨ isPyWs y = false) (stripWs l) := by
  unfold stripWs
  refine List.chain'_reverse.mpr ?_
  refine List.Chain'.imp (fun a b hab => Or.symm hab) ?_
  refine chain'_dropWhile isPyWs _ ?_
  refine List.chain'_reverse.mpr ?_
  refine List.Chain'.imp (fun a b hab => Or.symm hab) ?_
  exact chain'_dropWhile isPyWs _ h

theorem cleanText_no_nbsp (s : Str) (c : Char) (hc : c ∈ cleanText s) :
    ¬ c.val = 0xa0 := by
  intro hv
  have hws : isPyWs c = true := by simp [isPyWs, hv]
  have hsp : c = ' ' := by
    unfold cleanText at hc
    exact collapseWsAux_mem_ws false _ c (mem_stripWs _ c hc) hws
  rw [hsp] at hv
  exact absurd hv (by decide)

theorem replaceNbsp_cleanText (s : Str) :
    replaceNbsp (cleanText s) = cleanText s := by
  unfold replaceNbsp
  conv_rhs => rw [← List.map_id (cleanText s)]
  refine List.map_congr_left ?_
  intro a ha
  simp [cleanText_no_nbsp s a ha]

theorem collapseWs_cleanText (s : Str) :
    collapseWs (cleanText s) = cleanText s := by
  refine collapseWsAux_false_id _ ?_ ?_
  · intro c hc hws
    exact collapseWsAux_mem_ws false _ c (mem_stripWs _ c hc) hws
  · exact chain'_stripWs _ (collapseWsAux_chain' false _)

theorem stripWs_cleanText (s : Str) :
    stripWs (cleanText s) = cleanText s := by
  refine stripWs_eq_self _ ?_ ?_
  · exact stripWs_head _
  · exact stripWs_reverse_head _

/-- C4 counterexample: `clean_text` is not idempotent.  On `"[1[2]3]"`
the citation pass removes the inner marker `[2]`, producing `"[13]"`,
which is itself a citation marker; a second `clean_text` removes it,
yielding `""` ≠ `"[13]"`. -/
theorem cleanText_not_idempotent :
    cleanText (cleanText (("[1[2]3]").toList)) ≠
      cleanText (("[1[2]3]").toList) := by decide

/-- C4 (amended): `clean_text` is a pure function of its input, and it is
idempotent on every input whose normalized output contains no citation
marker — i.e. whenever the citation-removal pass leaves `clean_text s`
unchanged (which removal of a marker can fail to do only by creating a
new marker, as in the counterexample). -/
theorem cleanText_idempotent_of_no_new_citation (s : Str)
    (h : removeCitations (cleanText s) = cleanText s) :
    cleanText (cleanText s) = cleanText s := by
  show stripWs (collapseWs (replaceNbsp (removeCitations (cleanText s)))) =
    cleanText s
  rw [h, replaceNbsp_cleanText, collapseWs_cleanText, stripWs_cleanText]

/-- Witness for C4's amended theorem at the input `"hello  world"`. -/
theorem cleanText_idempotent_witness :
    removeCitations (cleanText (("hello  world").toList)) =
        cleanText (("hello  world").toList) ∧
      cleanText (cleanText (("hello  world").toList)) =
        cleanText (("hello  world").toList) :=
  ⟨by decide, cleanText_idempotent_of_no_new_citation _ (by decide)⟩

/-! ## Theorems: C3 — chunker guarantees -/

theorem chunksFromFuel_agree (target overlap : Nat) (words : List Str) :
    ∀ (f1 f2 i : Nat), words.length - i ≤ f1 → words.length - i ≤ f2 →
      chunksFromFuel target overlap words f1 i =
        chunksFromFuel target overlap words f2 i := by
  intro f1
  induction f1 with
  | zero =>
    intro f2 i h1 h2
    have hi : ¬ i < words.length := by omega
    cases f2 with
    | zero => rfl
    | succ f2 => simp [chunksFromFuel, hi]
  | succ f1 ih =>
    intro f2 i h1 h2
    by_cases hi : i < words.length
    · cases f2 with
      | zero => omega
      | succ f2 =>
        simp only [chunksFromFuel, hi, if_true]
        have hstep : 1 ≤ max 1 (target - overlap) := le_max_left _ _
        congr 1
        exact ih f2 _ (by omega) (by omega)
    · cases f2 with
      | zero => simp [chunksFromFuel, hi]
      | succ f2 => simp [chunksFromFuel, hi]

theorem chunksFrom_eq (words : List Str) (target overlap i : Nat) :
    chunksFrom words target overlap i =
      if i < words.length then
        ((words.drop i).take target) ::
          chunksFrom words target overlap (i + max 1 (target - overlap))
      else [] := by
  by_cases hi : i < words.length
  · unfold chunksFrom
    have hstep : 1 ≤ max 1 (target - overlap) := le_max_left _ _
    cases hk : words.length - i with
    | zero => omega
    | succ k =>
      simp only [chunksFromFuel, hi, if_true]
      congr 1
      exact chunksFromFuel_agree target overlap words k _ _ (by omega) (by omega)
  · unfold chunksFrom
    cases hk : words.length - i with
    | zero => simp [chunksFromFuel, hi]
    | succ k => simp [chunksFromFuel, hi]

theorem chunksFrom_get? (words : List Str) (target overlap : Nat) :
    ∀ (j i : Nat), i + j * max 1 (target - overlap) < words.length →
      (chunksFrom words target overlap i).get? j =
        some ((words.drop (i + j * max 1 (target - overlap))).take target) := by
  intro j
  induction j with
  | zero =>
    intro i h
    simp only [Nat.zero_mul, Nat.add_zero] at h ⊢
    rw [chunksFrom_eq]
    simp [h]
  | succ j ih =>
    intro i h
    have hstep : 1 ≤ max 1 (target - overlap) := le_max_left _ _
    have hi : i < words.length := by
      have hle : i ≤ i + (j+1) * max 1 (target - overlap) := Nat.le_add_right _ _
      omega
    rw [chunksFrom_eq]
    simp only [hi, if_true, List.get?_cons_succ]
    have harith : i + max 1 (target - overlap) + j * max 1 (target - overlap) =
        i + (j + 1) * max 1 (target - overlap) := by ring
    rw [ih (i + max 1 (target - overlap)) (by rw [harith]; exact h), harith]

theorem chunksFrom_mem (words : List Str) (target overlap : Nat) :
    ∀ (fuel i : Nat) (w : List Str),
      w ∈ chunksFromFuel target overlap words fuel i →
      ∃ j, j < words.length ∧ w = (words.drop j).take target := by
  intro fuel
  induction fuel with
  | zero => intro i w hw; simp [chunksFromFuel] at hw
  | succ fuel ih =>
    intro i w hw
    by_cases hi : i < words.length
    · simp only [chunksFromFuel, hi, if_true] at hw
      rcases List.mem_cons.mp hw with h | h
      · exact ⟨i, hi, h⟩
      · exact ih _ w h
    · simp [chunksFromFuel, hi] at hw

theorem pySplitAux_words : ∀ (s cur : Str), (∀ c ∈ cur, isPyWs c = false) →
    ∀ w ∈ pySplitAux cur s, w ≠ [] ∧ ∀ c ∈ w, isPyWs c = false := by
  intro s
  induction s with
  | nil =>
    intro cur hcur w hw
    unfold pySplitAux at hw
    by_cases hc : cur.isEmpty
    · simp [hc] at hw
    · rw [if_neg hc] at hw
      rcases List.mem_singleton.mp hw with rfl
      refine ⟨?_, ?_⟩
      · simp only [ne_eq, List.reverse_eq_nil_iff]
        exact fun h => hc (by simp [h])
      · intro c hcmem
        exact hcur c (List.mem_reverse.mp hcmem)
  | cons a rest ih =>
    intro cur hcur w hw
    unfold pySplitAux at hw
    by_cases hws : isPyWs a = true
    · simp only [hws, if_true] at hw
      by_cases hc : cur.isEmpty
      · rw [if_pos hc] at hw
        exact ih [] (by simp) w hw
      · rw [if_neg hc] at hw
        rcases List.mem_cons.mp hw with rfl | h
        · refine ⟨?_, ?_⟩
          · simp only [ne_eq, List.reverse_eq_nil_iff]
            exact fun h => hc (by simp [h])
          · intro c hcmem
            exact hcur c (List.mem_reverse.mp hcmem)
        · exact ih [] (by simp) w h
    · simp only [hws, if_false] at hw
      refine ih (a :: cur) ?_ w hw
      intro c hcmem
      rcases List.mem_cons.mp hcmem with rfl | h
      · exact Bool.eq_false_iff.mpr hws
      · exact hcur c h

theorem mem_joinSpace_left (w : Str) (rest : List Str) (c : Char)
    (hc : c ∈ w) : c ∈ joinSpace (w :: rest) := by
  cases rest with
  | nil => simpa [joinSpace] using hc
  | cons r rs => simp [joinSpace, hc]

theorem mem_dropWhile_of_neg (p : Char → Bool) :
    ∀ (l : Str) (c : Char), c ∈ l → p c = false → c ∈ l.dropWhile p := by
  intro l
  induction l with
  | nil => intro c hc; simp at hc
  | cons a rest ih =>
    intro c hc hp
    by_cases ha : p a = true
    · rw [List.dropWhile_cons_of_pos ha]
      rcases List.mem_cons.mp hc with rfl | h
      · rw [hp] at ha; cases ha
      · exact ih c h hp
    · rw [List.dropWhile_cons_of_neg ha]
      exact hc

theorem mem_stripWs_of_not_ws (l : Str) (c : Char) (hc : c ∈ l)
    (hp : isPyWs c = false) : c ∈ stripWs l := by
  unfold stripWs
  rw [List.mem_reverse]
  refine mem_dropWhile_of_neg isPyWs _ c ?_ hp
  rw [List.mem_reverse]
  exact mem_dropWhile_of_neg isPyWs _ c hc hp

theorem filterMap_eq_map_of_none_dropped {α β : Type} (f : α → Option β)
    (g : α → β) :
    ∀ (l : List α), (∀ x ∈ l, f x = some (g x)) → l.filterMap f = l.map g := by
  intro l
  induction l with
  | nil => intro _; rfl
  | cons a rest ih =>
    intro h
    rw [List.filterMap_cons, h a (List.mem_cons_self a rest), List.map_cons,
      ih (fun x hx => h x (List.mem_cons_of_mem a hx))]

theorem chunk_window_strip_ne (text : Str) (target overlap : Nat)
    (w : List Str) (hT : 1 ≤ target)
    (hw : w ∈ chunksFrom (pySplit (cleanText text)) target overlap 0) :
    ¬ (stripWs (joinSpace w)).isEmpty := by
  obtain ⟨j, hj, rfl⟩ :=
    chunksFrom_mem (pySplit (cleanText text)) target overlap _ 0 w hw
  set words := pySplit (cleanText text) with hwords
  have hlen : 1 ≤ ((words.drop j).take target).length := by
    rw [List.length_take, List.length_drop]
    omega
  cases hwin : (words.drop j).take target with
  | nil => rw [hwin] at hlen; simp at hlen
  | cons w0 rest =>
    have hw0 : w0 ∈ words := by
      have h1 : w0 ∈ (words.drop j).take target := by rw [hwin]; simp
      exact (List.drop_sublist j words).mem ((List.take_sublist _ _).mem h1)
    obtain ⟨hne, hchars⟩ :=
      pySplitAux_words (cleanText text) [] (by simp) w0 hw0
    have hc0 : w0.head hne ∈ joinSpace (w0 :: rest) :=
      mem_joinSpace_left w0 rest _ (List.head_mem hne)
    have hcs : (w0.head hne) ∈ stripWs (joinSpace (w0 :: rest)) :=
      mem_stripWs_of_not_ws _ _ hc0 (hchars _ (List.head_mem hne))
    intro habs
    rw [List.isEmpty_iff] at habs
    rw [habs] at hcs
    simp at hcs

/-- C3 counterexample: with five words and `T = 121 > O = 120` the step is
1, so the second chunk is not the final one, yet chunks 0 and 1 share only
4 words, not `O = 120` — the "only the final chunk may fall short"
exception in the claim does not cover truncated non-final windows. -/
theorem chunk_by_words_claim_overlap_fails :
    (chunk_by_words (("a b c d e").toList) 121 120).length = 5 ∧
      (chunk_by_words (("a b c d e").toList) 121 120).get? 0 =
        some (("a b c d e").toList) ∧
      (chunk_by_words (("a b c d e").toList) 121 120).get? 1 =
        some (("b c d e").toList) ∧
      sharedWords 5 121 1 0 = 4 ∧ ¬ sharedWords 5 121 1 0 = 120 := by
  decide

/-- C3 (amended): for text with `W ≥ 1` words after normalization and
`T > O = 120`, `chunk_by_words` keeps every window of the chunking loop
(joined by single spaces); the first window starts at word 0; window `j`
covers words `[j*s, j*s+T)` with step `s = max(1, T−O) = T−O`; the
windows cover `[0, W)`; and consecutive chunks share exactly `O` words
whenever the earlier chunk is a full `T`-word window (pairs whose earlier
window is truncated by the end of the text — always including the pair
ending at the final chunk — share fewer). -/
theorem chunk_by_words_spec (text : Str) (T : Nat)
    (hW : 1 ≤ (pySplit (cleanText text)).length) (hT : 120 < T) :
    chunk_by_words text T 120 =
        (chunksFrom (pySplit (cleanText text)) T 120 0).map joinSpace ∧
      chunkWindowProps (pySplit (cleanText text)) T 120 := by
  set words := pySplit (cleanText text) with hwords
  have hs : max 1 (T - 120) = T - 120 := by omega
  constructor
  · unfold chunk_by_words
    rw [← hwords]
    have hne : ¬ words.isEmpty = true := by
      rw [List.isEmpty_iff]
      intro h
      rw [h] at hW
      simp at hW
    rw [if_neg hne]
    refine filterMap_eq_map_of_none_dropped _ _ _ ?_
    intro w hw
    have hstrip := chunk_window_strip_ne text T 120 w (by omega)
      (by rw [hwords] at hw; exact hw)
    simp [hstrip]
  · refine ⟨?_, ?_, ?_, ?_⟩
    · have h := chunksFrom_get? words T 120 0 0 (by simpa using hW)
      simpa using h
    · intro j hj hjs
      have h := chunksFrom_get? words T 120 j 0 (by simpa using hjs)
      simpa using h
    · intro k hk
      rw [hs]
      have hspos : 0 < T - 120 := by omega
      refine ⟨k / (T - 120), ?_, ?_, ?_⟩
      · exact lt_of_le_of_lt (Nat.div_le_self k (T - 120)) hk
      · exact Nat.div_mul_le_self k (T - 120)
      · have hmod := Nat.mod_lt k hspos
        have hdm := Nat.div_add_mod k (T - 120)
        have hcomm : k / (T - 120) * (T - 120) = (T - 120) * (k / (T - 120)) :=
          Nat.mul_comm _ _
        omega
    · intro j hj hfull
      rw [hs] at hfull ⊢
      unfold sharedWords
      have hexp : (j + 1) * (T - 120) = j * (T - 120) + (T - 120) := by ring
      rw [hexp]
      generalize j * (T - 120) = m at hfull ⊢
      omega

/-- Witness for C3's amended theorem on the two-word text `"a b"` with
`T = 130`. -/
theorem chunk_by_words_spec_witness :
    (1 ≤ (pySplit (cleanText (("a b").toList))).length ∧ 120 < 130) ∧
      (chunk_by_words (("a b").toList) 130 120 =
          (chunksFrom (pySplit (cleanText (("a b").toList))) 130 120 0).map
            joinSpace ∧
        chunkWindowProps (pySplit (cleanText (("a b").toList))) 130 120) :=
  ⟨by decide, chunk_by_words_spec _ 130 (by decide) (by decide)⟩


/-! ## Theorems: C8 — fact deduplication -/

theorem dedupFactsP_cons_empty (seen : List Str) (f : Str) (rest : List Str)
    (he : (stripWs f).isEmpty = true) :
    dedupFactsP seen (f :: rest) = dedupFactsP seen rest := by
  simp [dedupFactsP, he]

theorem dedupFactsP_cons_seen (seen : List Str) (f : Str) (rest : List Str)
    (he : (stripWs f).isEmpty = false)
    (hk : normalize_fact (stripWs f) ∈ seen) :
    dedupFactsP seen (f :: rest) = dedupFactsP seen rest := by
  simp [dedupFactsP, he, hk]

theorem dedupFactsP_cons_new (seen : List Str) (f : Str) (rest : List Str)
    (he : (stripWs f).isEmpty = false)
    (hk : normalize_fact (stripWs f) ∉ seen) :
    dedupFactsP seen (f :: rest) =
      (stripWs f :: (dedupFactsP (normalize_fact (stripWs f) :: seen) rest).1,
        (dedupFactsP (normalize_fact (stripWs f) :: seen) rest).2) := by
  simp [dedupFactsP, he, hk]

theorem dedupFactsP_count (k : Str) : ∀ (facts seen : List Str),
    ((dedupFactsP seen facts).1.map normalize_fact).count k =
      if k ∉ seen ∧
          facts.any (fun f => !(stripWs f).isEmpty &&
            (normalize_fact (stripWs f) == k)) = true
        then 1 else 0 := by
  intro facts
  induction facts with
  | nil =>
    intro seen
    simp [dedupFactsP]
  | cons f rest ih =>
    intro seen
    by_cases he : (stripWs f).isEmpty = true
    · rw [dedupFactsP_cons_empty seen f rest he, ih seen]
      simp [List.any_cons, he]
    · have he' : (stripWs f).isEmpty = false := Bool.eq_false_iff.mpr he
      by_cases hk : normalize_fact (stripWs f) ∈ seen
      · rw [dedupFactsP_cons_seen seen f rest he' hk, ih seen]
        by_cases hkk : normalize_fact (stripWs f) = k
        · subst hkk
          simp [List.any_cons, hk]
        · have hbeq : (normalize_fact (stripWs f) == k) = false := by simp [hkk]
          simp [List.any_cons, hbeq, he']
      · rw [dedupFactsP_cons_new seen f rest he' hk]
        simp only [List.map_cons, List.count_cons]
        rw [ih (normalize_fact (stripWs f) :: seen)]
        by_cases hkk : normalize_fact (stripWs f) = k
        · subst hkk
          simp [List.any_cons, he', hk, List.mem_cons]
        · have hbeq : (normalize_fact (stripWs f) == k) = false := by simp [hkk]
          have hmem : (k ∈ normalize_fact (stripWs f) :: seen) ↔ k ∈ seen := by
            constructor
            · intro h
              rcases List.mem_cons.mp h with h' | h'
              · exact absurd h'.symm hkk
              · exact h'
            · exact fun h => List.mem_cons_of_mem _ h
          simp [List.any_cons, hbeq, hmem]

theorem dedupFactsP_find? (k : Str) : ∀ (facts seen : List Str), k ∉ seen →
    (dedupFactsP seen facts).1.find? (fun g => normalize_fact g == k) =
      ((facts.filter (fun f => !(stripWs f).isEmpty &&
        (normalize_fact (stripWs f) == k))).head?).map stripWs := by
  intro facts
  induction facts with
  | nil => intro seen _; simp [dedupFactsP]
  | cons f rest ih =>
    intro seen hks
    by_cases he : (stripWs f).isEmpty = true
    · rw [dedupFactsP_cons_empty seen f rest he, ih seen hks, List.filter_cons]
      simp [he]
    · have he' : (stripWs f).isEmpty = false := Bool.eq_false_iff.mpr he
      by_cases hk : normalize_fact (stripWs f) ∈ seen
      · have hkk : normalize_fact (stripWs f) ≠ k := fun h => hks (h ▸ hk)
        rw [dedupFactsP_cons_seen seen f rest he' hk, ih seen hks,
          List.filter_cons]
        simp [hkk]
      · rw [dedupFactsP_cons_new seen f rest he' hk]
        by_cases hkk : normalize_fact (stripWs f) = k
        · rw [List.find?_cons_of_pos _ (by simp [hkk]), List.filter_cons]
          simp [hkk, he']
        · rw [List.find?_cons_of_neg _ (by simp [hkk]),
            ih (normalize_fact (stripWs f) :: seen)
              (by
                intro h
                rcases List.mem_cons.mp h with h' | h'
                · exact absurd h'.symm hkk
                · exact hks h'),
            List.filter_cons]
          simp [hkk]

/-- C8: within one exhaustive run, the global fact list retains exactly
one fact per normalized key that occurs (with nonempty stripped text)
anywhere in the extracted stream — later duplicates are discarded, and
the retained fact is the stripped text of the first occurrence. -/
theorem fact_dedup_exactly_one (facts : List Str) (k : Str) :
    (((dedupFactsP [] facts).1.map normalize_fact).count k =
      if facts.any (fun f => !(stripWs f).isEmpty &&
          (normalize_fact (stripWs f) == k)) = true then 1 else 0) ∧
      ((dedupFactsP [] facts).1.find? (fun g => normalize_fact g == k) =
        ((facts.filter (fun f => !(stripWs f).isEmpty &&
          (normalize_fact (stripWs f) == k))).head?).map stripWs) := by
  constructor
  · rw [dedupFactsP_count k facts []]
    simp
  · exact dedupFactsP_find? k facts [] (by simp)

/-! ## Theorems: C10 — `normalize_modes` -/

theorem mem_dedupSeen : ∀ (l seen : List Str) (x : Str),
    x ∈ dedupSeen seen l ↔ x ∈ l ∧ x ∉ seen := by
  intro l
  induction l with
  | nil => intro seen x; simp [dedupSeen]
  | cons m rest ih =>
    intro seen x
    by_cases hm : m ∈ seen
    · simp only [dedupSeen, hm, if_true]
      rw [ih seen x]
      constructor
      · exact fun ⟨h1, h2⟩ => ⟨List.mem_cons_of_mem m h1, h2⟩
      · rintro ⟨h1, h2⟩
        rcases List.mem_cons.mp h1 with rfl | h1
        · exact absurd hm h2
        · exact ⟨h1, h2⟩
    · simp only [dedupSeen, hm, if_false]
      constructor
      · intro hx
        rcases List.mem_cons.mp hx with rfl | hx
        · exact ⟨List.mem_cons_self x rest, hm⟩
        · obtain ⟨h1, h2⟩ := (ih (m :: seen) x).mp hx
          refine ⟨List.mem_cons_of_mem m h1, fun hs => h2 (List.mem_cons_of_mem m hs)⟩
      · rintro ⟨h1, h2⟩
        rcases List.mem_cons.mp h1 with rfl | h1
        · exact List.mem_cons_self x _
        · by_cases hxm : x = m
          · subst hxm; exact List.mem_cons_self x _
          · refine List.mem_cons_of_mem _ ((ih (m :: seen) x).mpr ⟨h1, ?_⟩)
            intro hs
            rcases List.mem_cons.mp hs with h | h
            · exact hxm h
            · exact h2 h

theorem nodup_dedupSeen : ∀ (l seen : List Str), (dedupSeen seen l).Nodup := by
  intro l
  induction l with
  | nil => intro seen; simp [dedupSeen]
  | cons m rest ih =>
    intro seen
    by_cases hm : m ∈ seen
    · simp only [dedupSeen, hm, if_true]
      exact ih seen
    · simp only [dedupSeen, hm, if_false]
      refine List.nodup_cons.mpr ⟨?_, ih (m :: seen)⟩
      intro hmem
      obtain ⟨_, h2⟩ := (mem_dedupSeen rest (m :: seen) m).mp hmem
      exact h2 (List.mem_cons_self m seen)

theorem sublist_dedupSeen : ∀ (l seen : List Str), List.Sublist (dedupSeen seen l) l := by
  intro l
  induction l with
  | nil => intro seen; simp [dedupSeen]
  | cons m rest ih =>
    intro seen
    by_cases hm : m ∈ seen
    · simp only [dedupSeen, hm, if_true]
      exact (ih seen).trans (List.Sublist.cons m (List.Sublist.refl rest))
    · simp only [dedupSeen, hm, if_false]
      exact (ih (m :: seen)).cons₂ m

theorem firstIdx_cons_ne (x m : Str) (rest : List Str) (h : m ≠ x) :
    firstIdx x (m :: rest) = firstIdx x rest + 1 := by
  simp [firstIdx, h]

theorem pairwise_firstIdx_dedupSeen : ∀ (l seen : List Str),
    (dedupSeen seen l).Pairwise (fun a b => firstIdx a l < firstIdx b l) := by
  intro l
  induction l with
  | nil => intro seen; simp [dedupSeen]
  | cons m rest ih =>
    intro seen
    by_cases hm : m ∈ seen
    · simp only [dedupSeen, hm, if_true]
      refine List.Pairwise.imp_of_mem ?_ (ih seen)
      intro a b ha hb hab
      obtain ⟨haR, haS⟩ := (mem_dedupSeen rest seen a).mp ha
      obtain ⟨hbR, hbS⟩ := (mem_dedupSeen rest seen b).mp hb
      have ham : a ≠ m := fun h => haS (h ▸ hm)
      have hbm : b ≠ m := fun h => hbS (h ▸ hm)
      rw [firstIdx_cons_ne a m rest (fun h => ham h.symm),
        firstIdx_cons_ne b m rest (fun h => hbm h.symm)]
      omega
    · simp only [dedupSeen, hm, if_false]
      refine List.pairwise_cons.mpr ⟨?_, ?_⟩
      · intro b hb
        obtain ⟨hbR, hbS⟩ := (mem_dedupSeen rest (m :: seen) b).mp hb
        have hbm : b ≠ m := fun h => hbS (h ▸ List.mem_cons_self m seen)
        rw [firstIdx_cons_ne b m rest (fun h => hbm h.symm)]
        simp [firstIdx]
      · refine List.Pairwise.imp_of_mem ?_ (ih (m :: seen))
        intro a b ha hb hab
        obtain ⟨haR, haS⟩ := (mem_dedupSeen rest (m :: seen) a).mp ha
        obtain ⟨hbR, hbS⟩ := (mem_dedupSeen rest (m :: seen) b).mp hb
        have ham : a ≠ m := fun h => haS (h ▸ List.mem_cons_self m seen)
        have hbm : b ≠ m := fun h => hbS (h ▸ List.mem_cons_self m seen)
        rw [firstIdx_cons_ne a m rest (fun h => ham h.symm),
          firstIdx_cons_ne b m rest (fun h => hbm h.symm)]
        omega

theorem matchMode_mem : ∀ (al : List (Str × List Str)) (ml c : Str),
    matchMode al ml = some c → c ∈ al.map Prod.fst := by
  intro al
  induction al with
  | nil => intro ml c h; simp [matchMode] at h
  | cons p rest ih =>
    intro ml c h
    obtain ⟨canon, aliases⟩ := p
    by_cases hc : ml = pyLower canon ∨ ml ∈ aliases
    · simp only [matchMode, hc, if_true, Option.some.injEq] at h
      subst h
      simp
    · simp only [matchMode, hc, if_false] at h
      simp only [List.map_cons, List.mem_cons]
      exact Or.inr (ih ml c h)

theorem normalizeOneMode_canonical (m : Option Str) :
    normalizeOneMode m ∈ CANONICAL_MODES := by
  simp only [normalizeOneMode]
  cases hm : matchMode MODE_ALIASES
      (pyLower (stripWs (match m with | none => [] | some s => s))) with
  | none => simp [CANONICAL_MODES, MODE_ALIASES]
  | some canon => exact matchMode_mem _ _ _ hm

/-- C10: `normalize_modes` always returns a non-empty, duplicate-free list
of canonical mode names; an empty input yields exactly
`["Basic Recall (Q/A)"]`; for non-empty input the result is the per-entry
normalization (unrecognized entries map to `"Basic Recall (Q/A)"`)
deduplicated keeping the first occurrence of each canonical name, in
first-occurrence order. -/
theorem normalize_modes_spec (ms : List (Option Str)) :
    normalize_modes ms ≠ [] ∧
      (normalize_modes ms).Nodup ∧
      (∀ x ∈ normalize_modes ms, x ∈ CANONICAL_MODES) ∧
      (ms.isEmpty = true → normalize_modes ms = [kBasicRecall]) ∧
      (ms.isEmpty = false →
        List.Sublist (normalize_modes ms) (ms.map normalizeOneMode) ∧
        (∀ x, x ∈ normalize_modes ms ↔ x ∈ ms.map normalizeOneMode) ∧
        (normalize_modes ms).Pairwise (fun a b =>
          firstIdx a (ms.map normalizeOneMode) <
            firstIdx b (ms.map normalizeOneMode))) := by
  by_cases hemp : ms.isEmpty = true
  · refine ⟨?_, ?_, ?_, ?_, ?_⟩ <;>
      simp_all [normalize_modes, CANONICAL_MODES, MODE_ALIASES]
  · have hemp' : ms.isEmpty = false := Bool.eq_false_iff.mpr hemp
    have hform : normalize_modes ms = dedupSeen [] (ms.map normalizeOneMode) := by
      simp [normalize_modes, hemp']
    refine ⟨?_, ?_, ?_, ?_, ?_⟩
    · rw [hform]
      cases hms : ms with
      | nil => rw [hms] at hemp'; simp at hemp'
      | cons m0 mrest =>
        simp only [List.map_cons]
        intro habs
        have : normalizeOneMode m0 ∈ dedupSeen []
            (normalizeOneMode m0 :: mrest.map normalizeOneMode) := by
          rw [mem_dedupSeen]
          exact ⟨List.mem_cons_self _ _, by simp⟩
        rw [habs] at this
        simp at this
    · rw [hform]; exact nodup_dedupSeen _ _
    · intro x hx
      rw [hform, mem_dedupSeen] at hx
      obtain ⟨h1, _⟩ := hx
      obtain ⟨m, _, rfl⟩ := List.mem_map.mp h1
      exact normalizeOneMode_canonical m
    · intro h; rw [h] at hemp'; cases hemp'
    · intro _
      refine ⟨?_, ?_, ?_⟩
      · rw [hform]; exact sublist_dedupSeen _ _
      · intro x
        rw [hform, mem_dedupSeen]
        simp
      · rw [hform]; exact pairwise_firstIdx_dedupSeen _ _

/-- Witness for C10 at the input `["cloze", None]`: the result is
`["Fill in the Blank", "Basic Recall (Q/A)"]`, satisfying every clause. -/
theorem normalize_modes_spec_witness :
    normalize_modes [some (("cloze").toList), none] ≠ [] ∧
      (normalize_modes [some (("cloze").toList), none]).Nodup ∧
      (∀ x ∈ normalize_modes [some (("cloze").toList), none],
        x ∈ CANONICAL_MODES) ∧
      (([some (("cloze").toList), none] : List (Option Str)).isEmpty = true →
        normalize_modes [some (("cloze").toList), none] = [kBasicRecall]) ∧
      (([some (("cloze").toList), none] : List (Option Str)).isEmpty = false →
        List.Sublist (normalize_modes [some (("cloze").toList), none])
          (([some (("cloze").toList), none]).map normalizeOneMode) ∧
        (∀ x, x ∈ normalize_modes [some (("cloze").toList), none] ↔
          x ∈ ([some (("cloze").toList), none]).map normalizeOneMode) ∧
        (normalize_modes [some (("cloze").toList), none]).Pairwise (fun a b =>
          firstIdx a (([some (("cloze").toList), none]).map normalizeOneMode) <
            firstIdx b (([some (("cloze").toList), none]).map normalizeOneMode))) :=
  normalize_modes_spec [some (("cloze").toList), none]

/-! ## Theorems: C6 and C9 — usage ledger -/

theorem ne_vm : ¬ kVersion = kMonth := by decide

theorem ne_vc : ¬ kVersion = kCardsUsed := by decide

theorem ne_vp : ¬ kVersion = kCap := by decide

theorem ne_mv : ¬ kMonth = kVersion := by decide

theorem ne_mc : ¬ kMonth = kCardsUsed := by decide

theorem ne_mp : ¬ kMonth = kCap := by decide

theorem ne_cv : ¬ kCardsUsed = kVersion := by decide

theorem ne_cm : ¬ kCardsUsed = kMonth := by decide

theorem ne_cp : ¬ kCardsUsed = kCap := by decide

theorem ne_pv : ¬ kCap = kVersion := by decide

theorem ne_pm : ¬ kCap = kMonth := by decide

theorem ne_pc : ¬ kCap = kCardsUsed := by decide

theorem validate_shape (d : UDict) (current : Str) :
    ∃ cu cap : ℤ, 0 ≤ cu ∧ 0 ≤ cap ∧
      _validate_and_patch_usage (some d) current =
        [(kVersion, .int USAGE_SCHEMA_VERSION), (kMonth, .str current),
          (kCardsUsed, .int cu), (kCap, .int cap)] := by
  simp only [_validate_and_patch_usage, mergeKnown, usage_defaults,
    List.map_cons, List.map_nil]
  simp only [dget, dset, ne_vm, ne_vc, ne_vp, ne_mv, ne_mc, ne_mp, ne_cv,
    ne_cm, ne_cp, ne_pv, ne_pm, ne_pc, if_false, if_true, ite_true,
    ite_false, eq_self_iff_true, if_neg, if_pos, pyIntCoerce]
  split_ifs with hb
  · refine ⟨0, max 0 ((pyIntCoerce ((dget d kCap).getD
      (PyVal.int DEFAULT_CAP_CARDS_PER_MONTH))).getD DEFAULT_CAP_CARDS_PER_MONTH),
      le_refl 0, le_max_left _ _, ?_⟩
    simp [dget, dset, ne_vm, ne_vc, ne_vp, ne_mv, ne_mc, ne_mp, ne_cv,
      ne_cm, ne_cp, ne_pv, ne_pm, ne_pc, pyIntCoerce]
  · refine ⟨max 0 ((pyIntCoerce ((dget d kCardsUsed).getD
      (PyVal.int 0))).getD 0),
      max 0 ((pyIntCoerce ((dget d kCap).getD
        (PyVal.int DEFAULT_CAP_CARDS_PER_MONTH))).getD DEFAULT_CAP_CARDS_PER_MONTH),
      le_max_left _ _, le_max_left _ _, ?_⟩
    simp only [not_not] at hb
    have hb2 := Option.some.inj hb
    simp [dget, dset, ne_vm, ne_vc, ne_vp, ne_mv, ne_mc, ne_mp, ne_cv,
      ne_cm, ne_cp, ne_pv, ne_pm, ne_pc, pyIntCoerce, hb2]

theorem validate_concrete (current : Str) (v : ℤ) (m : Str) (cu cp : ℤ)
    (hcu : 0 ≤ cu) (hcp : 0 ≤ cp) :
    _validate_and_patch_usage
        (some [(kVersion, .int v), (kMonth, .str m),
          (kCardsUsed, .int cu), (kCap, .int cp)]) current =
      [(kVersion, .int USAGE_SCHEMA_VERSION), (kMonth, .str current),
        (kCardsUsed, .int (if m = current then cu else 0)),
        (kCap, .int cp)] := by
  by_cases hm : m = current
  · subst hm
    simp [_validate_and_patch_usage, mergeKnown, usage_defaults, dget, dset,
      ne_vm, ne_vc, ne_vp, ne_mv, ne_mc, ne_mp, ne_cv, ne_cm, ne_cp,
      ne_pv, ne_pm, ne_pc, pyIntCoerce, max_eq_right hcu, max_eq_right hcp]
  · simp [_validate_and_patch_usage, mergeKnown, usage_defaults, dget, dset,
      ne_vm, ne_vc, ne_vp, ne_mv, ne_mc, ne_mp, ne_cv, ne_cm, ne_cp,
      ne_pv, ne_pm, ne_pc, pyIntCoerce, hm, max_eq_right hcp]

/-- C6: loading a well-typed persisted record `{version: v, month: m,
cards_used: cu ≥ 0, cap: cp ≥ 0}` returns the record with `cards_used`
reset to 0 exactly when the month changed (`cap` preserved, version
stamped), and passes a current-month record through with `cards_used`
and `cap` unchanged; the corrected record is re-persisted exactly when
it differs from what was read (month changed or version differed). -/
theorem load_usage_month_rollover (current : Str) (v : ℤ) (m : Str)
    (cu cp : ℤ) (hcu : 0 ≤ cu) (hcp : 0 ≤ cp) :
    load_usage (.dict [(kVersion, .int v), (kMonth, .str m),
        (kCardsUsed, .int cu), (kCap, .int cp)]) current =
      ([(kVersion, .int USAGE_SCHEMA_VERSION), (kMonth, .str current),
        (kCardsUsed, .int (if m = current then cu else 0)),
        (kCap, .int cp)],
        if v = USAGE_SCHEMA_VERSION ∧ m = current then false else true) := by
  simp only [load_usage]
  rw [validate_concrete current v m cu cp hcu hcp]
  refine Prod.ext rfl ?_
  by_cases hv : v = USAGE_SCHEMA_VERSION <;> by_cases hm : m = current
  · subst hv; subst hm
    simp [dictBeq, dget, ne_vm, ne_vc, ne_vp, ne_mv, ne_mc, ne_mp, ne_cv,
      ne_cm, ne_cp, ne_pv, ne_pm, ne_pc]
  · have hm' : ¬ current = m := fun h => hm h.symm
    simp [dictBeq, dget, ne_vm, ne_vc, ne_vp, ne_mv, ne_mc, ne_mp, ne_cv,
      ne_cm, ne_cp, ne_pv, ne_pm, ne_pc, hm, hm']
  · have hv' : ¬ USAGE_SCHEMA_VERSION = v := fun h => hv h.symm
    simp [dictBeq, dget, ne_vm, ne_vc, ne_vp, ne_mv, ne_mc, ne_mp, ne_cv,
      ne_cm, ne_cp, ne_pv, ne_pm, ne_pc, hv, hv']
  · have hm' : ¬ current = m := fun h => hm h.symm
    simp [dictBeq, dget, ne_vm, ne_vc, ne_vp, ne_mv, ne_mc, ne_mp, ne_cv,
      ne_cm, ne_cp, ne_pv, ne_pm, ne_pc, hm, hm']

/-- Witness for C6: rolling from month `"2025-09"` into `"2025-10"`
resets `cards_used` 7 → 0 and preserves `cap = 9`, persisting the
patched record. -/
theorem load_usage_month_rollover_witness :
    ((0:ℤ) ≤ 7 ∧ (0:ℤ) ≤ 9) ∧
      load_usage (.dict [(kVersion, .int 1),
          (kMonth, .str (("2025-09").toList)),
          (kCardsUsed, .int 7), (kCap, .int 9)]) (("2025-10").toList) =
        ([(kVersion, .int USAGE_SCHEMA_VERSION),
          (kMonth, .str (("2025-10").toList)),
          (kCardsUsed, .int (if ("2025-09").toList = ("2025-10").toList
            then 7 else 0)),
          (kCap, .int 9)],
          if (1:ℤ) = USAGE_SCHEMA_VERSION ∧
              ("2025-09").toList = ("2025-10").toList
            then false else true) :=
  ⟨by decide,
    load_usage_month_rollover (("2025-10").toList) 1 (("2025-09").toList) 7 9
      (by decide) (by decide)⟩

/-- C9: every record produced by `_validate_and_patch_usage`,
`save_usage`, or `load_usage` — for arbitrary (even malformed or
extraneous-keyed) input — has exactly the keys `version, month,
cards_used, cap`, with the schema version constant, the current month,
and non-negative integer counters; unknown keys are stripped. -/
theorem usage_record_wellformed (data : Option UDict) (d0 : UDict)
    (f : FileRead) (current : Str) :
    usageWellFormedB (_validate_and_patch_usage data current) current = true ∧
      usageWellFormedB (save_usage d0 current) current = true ∧
      usageWellFormedB ((load_usage f current).1) current = true := by
  have hdef : usageWellFormedB (usage_defaults current) current = true := by
    simp [usageWellFormedB, usage_defaults, dget, ne_vm, ne_vc, ne_vp, ne_mv,
      ne_mc, ne_mp, ne_cv, ne_cm, ne_cp, ne_pv, ne_pm, ne_pc,
      USAGE_SCHEMA_VERSION, DEFAULT_CAP_CARDS_PER_MONTH]
  have hsome : ∀ d : UDict,
      usageWellFormedB (_validate_and_patch_usage (some d) current) current
        = true := by
    intro d
    obtain ⟨cu, cap, hcu, hcap, heq⟩ := validate_shape d current
    rw [heq]
    simp [usageWellFormedB, dget, ne_vm, ne_vc, ne_vp, ne_mv, ne_mc, ne_mp,
      ne_cv, ne_cm, ne_cp, ne_pv, ne_pm, ne_pc, hcu, hcap]
  refine ⟨?_, hsome d0, ?_⟩
  · cases data with
    | none => exact hdef
    | some d => exact hsome d
  · cases f with
    | missing => exact hdef
    | unreadable => exact hsome []
    | nonDict => exact hdef
    | dict d => exact hsome d

/-! ## Theorems: C5 — `parse_json_array` -/

theorem findIdxFirst_drop (c : Char) : ∀ (s : Str) (i : Nat),
    findIdxFirst c s = some i → (s.drop i).head? = some c := by
  intro s
  induction s with
  | nil => intro i h; simp [findIdxFirst] at h
  | cons x rest ih =>
    intro i h
    by_cases hx : x = c
    · subst hx
      simp [findIdxFirst] at h
      subst h
      simp
    · simp only [findIdxFirst, hx, if_false] at h
      cases hf : findIdxFirst c rest with
      | none => rw [hf] at h; simp at h
      | some j =>
        rw [hf] at h
        simp only [Option.map_some', Option.some.injEq] at h
        subst h
        rw [List.drop_succ_cons]
        exact ih j hf

theorem parseValue_succ_bracket (fuel : Nat) (r : Str) :
    parseValue (fuel + 1) ('[' :: r) =
      (parseElems fuel (skipWs r) true).map (fun p => (Json.arr p.1, p.2)) :=
  rfl

theorem json_loads_bracket_isArr (t : Str) (v : Json)
    (hhead : t.head? = some '[') (h : json_loads t = some v) :
    v.isArr = true := by
  cases t with
  | nil => simp at hhead
  | cons c r =>
    rw [List.head?_cons, Option.some.injEq] at hhead
    subst hhead
    unfold json_loads at h
    have hskip : skipWs ('[' :: r) = '[' :: r := by
      refine dropWhile_eq_self_of_head jsWs _ ?_
      intro x hx
      rw [List.head?_cons, Option.some.injEq] at hx
      subst hx
      rfl
    rw [hskip] at h
    have hfe : 2 * ('[' :: r).length + 4 = (2 * ('[' :: r).length + 3) + 1 := by
      omega
    rw [hfe] at h
    rw [parseValue_succ_bracket] at h
    cases hpe : parseElems (2 * ('[' :: r).length + 3) (skipWs r) true with
    | none => rw [hpe] at h; simp at h
    | some p =>
      rw [hpe] at h
      simp only [Option.map_some'] at h
      by_cases hr : (skipWs p.2).isEmpty = true
      · rw [if_pos hr] at h
        rw [Option.some.injEq] at h
        subst h
        rfl
      · rw [if_neg hr] at h
        cases h

/-- C5 counterexample: on the payload `"true"` no JSON array can be
recovered by either strategy, yet `parse_json_array` does not fail — the
strict parse succeeds and the function returns the (non-array) boolean
value. -/
theorem parse_json_array_returns_nonarray :
    (parse_json_array (("true").toList)).bind Json.boolVal = some true ∧
      (parse_json_array (("true").toList)).map Json.isArr = some false := by
  decide

/-- C5 (amended): `parse_json_array` first attempts a strict JSON parse
of the whole payload and, on success, returns the parsed value — of any
JSON type, not necessarily an array.  If the strict parse fails it
re-parses the slice between the first `[` and the last `]`; any value
recovered this way is a JSON array.  It fails exactly when the strict
parse fails and no such slice exists (or its parse also fails). -/
theorem parse_json_array_spec (s : Str) :
    (parse_json_array s = none ↔
      (json_loads s = none ∧
        (¬ (pyFind s '[' ≠ -1 ∧ pyRfind s ']' + 1 > pyFind s '[') ∨
          json_loads ((s.drop (pyFind s '[').toNat).take
            (pyRfind s ']' + 1 - pyFind s '[').toNat) = none))) ∧
      (∀ v, json_loads s = some v → parse_json_array s = some v) ∧
      (∀ v, json_loads s = none → parse_json_array s = some v →
        v.isArr = true) := by
  refine ⟨?_, ?_, ?_⟩
  · simp only [parse_json_array]
    cases hj : json_loads s with
    | some v => simp [hj]
    | none =>
      by_cases hc : pyFind s '[' ≠ -1 ∧ pyRfind s ']' + 1 > pyFind s '['
      · rw [if_pos hc]
        simp [hc]
      · rw [if_neg hc]
        simp [hc]
  · intro v hv
    simp only [parse_json_array]
    rw [hv]
  · intro v hn hp
    simp only [parse_json_array] at hp
    rw [hn] at hp
    by_cases hc : pyFind s '[' ≠ -1 ∧ pyRfind s ']' + 1 > pyFind s '['
    · rw [if_pos hc] at hp
      obtain ⟨hfind, hgt⟩ := hc
      cases hf : findIdxFirst '[' s with
      | none => exact absurd (by simp [pyFind, hf]) hfind
      | some i =>
        have hdrop : (s.drop i).head? = some '[' := findIdxFirst_drop '[' s i hf
        have hstart : (pyFind s '[').toNat = i := by simp [pyFind, hf]
        have hposs : (0 : ℤ) ≤ pyFind s '[' := by simp [pyFind, hf]
        have hpos : 1 ≤ (pyRfind s ']' + 1 - pyFind s '[').toNat := by
          omega
        have hhead : ((s.drop (pyFind s '[').toNat).take
            (pyRfind s ']' + 1 - pyFind s '[').toNat).head? = some '[' := by
          rw [hstart]
          cases hk : (pyRfind s ']' + 1 - pyFind s '[').toNat with
          | zero => omega
          | succ k =>
            cases hd : s.drop i with
            | nil => rw [hd] at hdrop; simp at hdrop
            | cons a l =>
              have ha : a = '[' := by
                rw [hd, List.head?_cons, Option.some.injEq] at hdrop
                exact hdrop
              simp [ha]
        exact json_loads_bracket_isArr _ v hhead hp
    · rw [if_neg hc] at hp
      cases hp

/-- Witness for C5's amended theorem at a payload whose strict parse
fails but whose bracket slice parses. -/
theorem parse_json_array_spec_witness :
    (parse_json_array (("prose [1, 2] more").toList) = none ↔
      (json_loads (("prose [1, 2] more").toList) = none ∧
        (¬ (pyFind (("prose [1, 2] more").toList) '[' ≠ -1 ∧
            pyRfind (("prose [1, 2] more").toList) ']' + 1 >
              pyFind (("prose [1, 2] more").toList) '[') ∨
          json_loads (((("prose [1, 2] more").toList).drop
              (pyFind (("prose [1, 2] more").toList) '[').toNat).take
            (pyRfind (("prose [1, 2] more").toList) ']' + 1 -
              pyFind (("prose [1, 2] more").toList) '[').toNat) = none))) ∧
      (∀ v, json_loads (("prose [1, 2] more").toList) = some v →
        parse_json_array (("prose [1, 2] more").toList) = some v) ∧
      (∀ v, json_loads (("prose [1, 2] more").toList) = none →
        parse_json_array (("prose [1, 2] more").toList) = some v →
        v.isArr = true) :=
  parse_json_array_spec (("prose [1, 2] more").toList)

/-! ## Theorems: C1 and C7 — run bounds, ledger accounting, gating -/

theorem addLoop_acc_le (limit added : Nat) :
    ∀ (batch deck : List Card) (acc : Nat), added + acc ≤ limit →
      added + (addLoop limit added deck batch acc).2 ≤ limit := by
  intro batch
  induction batch with
  | nil =>
    intro deck acc h
    simpa [addLoop] using h
  | cons c rest ih =>
    intro deck acc h
    by_cases hl : limit ≤ added + acc
    · simp only [addLoop, hl, if_true]
      exact h
    · simp only [addLoop, hl, if_false]
      by_cases he : c.front.isEmpty = true ∨ c.back.isEmpty = true
      · simp only [he, if_true]
        exact ih deck acc h
      · simp only [he, if_false]
        exact ih (deck ++ [c]) (acc + 1) (by omega)

theorem commitBatch_added (limit : Nat) (st : RunState) (batch : List Card) :
    (commitBatch limit st batch).1.cards_added =
      st.cards_added + (commitBatch limit st batch).2 := by
  unfold commitBatch
  by_cases h : 0 < (addLoop limit st.cards_added st.deck batch 0).2 <;>
    simp [h]

theorem commitBatch_inv (used0 : ℤ) (limit : Nat) (st : RunState)
    (batch : List Card) (hinv : stInv used0 limit st) :
    stInv used0 limit (commitBatch limit st batch).1 := by
  obtain ⟨hle, hu, hs, hp⟩ := hinv
  have hacc := addLoop_acc_le limit st.cards_added batch st.deck 0 (by omega)
  unfold commitBatch
  by_cases h : 0 < (addLoop limit st.cards_added st.deck batch 0).2
  · simp only [h, if_true]
    refine ⟨?_, ?_, ?_, ?_⟩
    · show st.cards_added + (addLoop limit st.cards_added st.deck batch 0).2 ≤ limit
      omega
    · show st.usage + ((addLoop limit st.cards_added st.deck batch 0).2 : ℤ) =
        used0 + ((st.cards_added + (addLoop limit st.cards_added st.deck batch 0).2 : Nat) : ℤ)
      omega
    · show (st.saves ++ [(addLoop limit st.cards_added st.deck batch 0).2]).sum =
        st.cards_added + (addLoop limit st.cards_added st.deck batch 0).2
      rw [List.sum_append]
      simp [hs]
    · show (st.saves ++ [(addLoop limit st.cards_added st.deck batch 0).2]).all
        (fun d => decide (0 < d)) = true
      rw [List.all_append]
      simp [hp, h]
  · simp only [h, if_false]
    have hz : (addLoop limit st.cards_added st.deck batch 0).2 = 0 := by omega
    refine ⟨?_, ?_, ?_, hp⟩
    · show st.cards_added + (addLoop limit st.cards_added st.deck batch 0).2 ≤ limit
      omega
    · show st.usage =
        used0 + ((st.cards_added + (addLoop limit st.cards_added st.deck batch 0).2 : Nat) : ℤ)
      omega
    · show st.saves.sum =
        st.cards_added + (addLoop limit st.cards_added st.deck batch 0).2
      omega

theorem stInv_calls (used0 : ℤ) (limit : Nat) (st : RunState) (c : Nat)
    (hinv : stInv used0 limit st) :
    stInv used0 limit { st with calls := c } := hinv

theorem stInv_init (used0 : ℤ) (limit : Nat) :
    stInv used0 limit (initState used0) := by
  refine ⟨Nat.zero_le _, ?_, rfl, rfl⟩
  simp [initState]

theorem exhaustiveLoop_inv (cr : Nat → List (Option RawItem))
    (allowed_total : Nat) (used0 : ℤ) :
    ∀ (k i : Nat) (st : RunState), allowed_total - i ≤ k →
      stInv used0 allowed_total st →
      stInv used0 allowed_total (exhaustiveLoop cr allowed_total i st) := by
  intro k
  induction k with
  | zero =>
    intro i st hk hinv
    rw [exhaustiveLoop]
    have hni : ¬ i < allowed_total := by omega
    rw [dif_neg hni]
    exact hinv
  | succ k ih =>
    intro i st hk hinv
    rw [exhaustiveLoop]
    by_cases hi : i < allowed_total
    · rw [dif_pos hi]
      exact ih (i + 50) _ (by omega)
        (commitBatch_inv used0 allowed_total _ _ hinv)
    · rw [dif_neg hi]
      exact hinv

theorem chunkLoop_inv (cr : Nat → List (Option RawItem)) (y : ℚ)
    (total tfc : Nat) (used0 : ℤ) :
    ∀ (k produced : Nat) (st : RunState), tfc - produced ≤ k →
      stInv used0 total st →
      stInv used0 total (chunkLoop cr y total tfc produced st) := by
  intro k
  induction k with
  | zero =>
    intro produced st hk hinv
    rw [chunkLoop]
    have hni : ¬ (produced < tfc ∧ st.cards_added < total) := by
      intro hc
      omega
    rw [dif_neg hni]
    exact hinv
  | succ k ih =>
    intro produced st hk hinv
    rw [chunkLoop]
    by_cases hc : produced < tfc ∧ st.cards_added < total
    · rw [dif_pos hc]
      have hcb := commitBatch_inv used0 total
        { st with calls := st.calls + 1 }
        (ai_generate_batch_clean
          (choose_call_size y ((total : ℤ) - (st.cards_added : ℤ))
            ((tfc : ℤ) - (produced : ℤ))).toNat
          (cr st.calls)) hinv
      by_cases hacc : 0 < (chunkCall cr y total tfc produced st).2
      · rw [dif_pos hacc]
        exact ih (produced + (chunkCall cr y total tfc produced st).2) _
          (by
            have h1 : produced < tfc := hc.1
            omega) hcb
      · rw [dif_neg hacc]
        exact hcb
    · rw [dif_neg hc]
      exact hinv

theorem balancedChunks_inv (cr : Nat → List (Option RawItem)) (y : ℚ)
    (total : Nat) (used0 : ℤ) :
    ∀ (targets : List Nat) (st : RunState), stInv used0 total st →
      stInv used0 total (balancedChunks cr y total targets st) := by
  intro targets
  induction targets with
  | nil => intro st hinv; exact hinv
  | cons t rest ih =>
    intro st hinv
    exact ih _ (chunkLoop_inv cr y total t used0 (t - 0) 0 st (by omega) hinv)

theorem sweepPass_inv (cr : Nat → List (Option RawItem)) (y : ℚ)
    (total : Nat) (used0 : ℤ) :
    ∀ (k : Nat) (st : RunState) (prog : Bool), stInv used0 total st →
      stInv used0 total (sweepPass cr y total k st prog).1 := by
  intro k
  induction k with
  | zero => intro st prog hinv; exact hinv
  | succ k ih =>
    intro st prog hinv
    rw [sweepPass]
    by_cases hlt : st.cards_added < total
    · rw [if_pos hlt]
      exact ih _ _ (commitBatch_inv used0 total _ _ hinv)
    · rw [if_neg hlt]
      exact hinv

theorem sweepLoopFuel_inv (cr : Nat → List (Option RawItem)) (y : ℚ)
    (total nchunks : Nat) (used0 : ℤ) :
    ∀ (fuel : Nat) (st : RunState), stInv used0 total st →
      stInv used0 total (sweepLoopFuel cr y total nchunks fuel st) := by
  intro fuel
  induction fuel with
  | zero => intro st hinv; exact hinv
  | succ fuel ih =>
    intro st hinv
    rw [sweepLoopFuel]
    by_cases hlt : st.cards_added < total
    · rw [if_pos hlt]
      by_cases hpr : (sweepPass cr y total nchunks st false).2 = true
      · rw [if_pos hpr]
        exact ih _ (sweepPass_inv cr y total used0 nchunks st false hinv)
      · rw [if_neg hpr]
        exact sweepPass_inv cr y total used0 nchunks st false hinv
    · rw [if_neg hlt]
      exact hinv

theorem extractChunks_state (fr : Nat → List FactItem) :
    ∀ (k : Nat) (facts seen : List Str) (st : RunState),
      (extractChunks fr k facts seen st).2.2 =
        { st with calls := st.calls + k } := by
  intro k
  induction k with
  | zero => intro facts seen st; rfl
  | succ k ih =>
    intro facts seen st
    rw [extractChunks, ih]
    have : st.calls + 1 + k = st.calls + (k + 1) := by omega
    rw [this]

theorem exhaustive_pipeline_inv (fr : Nat → List FactItem)
    (cr : Nat → List (Option RawItem)) (used0 : ℤ) (N R : Nat) :
    stInv used0 (min (extractChunks fr N [] [] (initState used0)).1.length R)
      (exhaustiveLoop cr
        (min (extractChunks fr N [] [] (initState used0)).1.length R) 0
        (extractChunks fr N [] [] (initState used0)).2.2) := by
  have hinit : stInv used0
      (min (extractChunks fr N [] [] (initState used0)).1.length R)
      (extractChunks fr N [] [] (initState used0)).2.2 := by
    rw [extractChunks_state]
    exact stInv_calls used0 _ (initState used0) _ (stInv_init used0 _)
  generalize hA : min (extractChunks fr N [] [] (initState used0)).1.length R
    = A at hinit ⊢
  exact exhaustiveLoop_inv cr A used0 A 0 _ (by omega) hinit

theorem balanced_pipeline_inv (cr : Nat → List (Option RawItem)) (y : ℚ)
    (used0 : ℤ) (T n : Nat) (targets : List Nat) :
    stInv used0 T
      (sweepLoop cr y T n (balancedChunks cr y T targets (initState used0))) := by
  unfold sweepLoop
  exact sweepLoopFuel_inv cr y T n used0 (T + 1) _
    (balancedChunks_inv cr y T used0 targets (initState used0)
      (stInv_init used0 T))

/-- C1: for every run of `build_apkg`, the cards added to the deck never
exceed the pipeline target — in the exhaustive pipeline the deduplicated
fact count capped by the remaining cap computed at run start, in the
balanced pipeline the estimated total capped by that remaining cap — and
the ledger accounting holds: `cards_used` grows by exactly each batch's
accepted count, only for batches that accepted at least one card, and is
never pre-debited for requested-but-undelivered cards. -/
theorem build_apkg_card_bounds (email : Str) (subActive keyPresent : Bool)
    (usageCap usageUsed : ℤ) (text : Str) (yield_level : ℚ)
    (approx_cards wpc : ℤ) (factResponses : Nat → List FactItem)
    (cardResponses : Nat → List (Option RawItem)) :
    (build_apkg_run email subActive keyPresent usageCap usageUsed text
        yield_level approx_cards wpc factResponses
        cardResponses).2.cards_added ≤
      (if yield_level ≤ YIELD_EPS then
        min (extractChunks factResponses
            (chunk_by_words text (max 300 wpc).toNat 120).length [] []
            (initState usageUsed)).1.length
          (max 0 (usageCap - usageUsed)).toNat
      else
        (min (estimate_total_cards text approx_cards yield_level)
          (max 0 (usageCap - usageUsed))).toNat) ∧
    ledgerOK usageUsed
      (build_apkg_run email subActive keyPresent usageCap usageUsed text
        yield_level approx_cards wpc factResponses cardResponses).2 := by
  simp only [build_apkg_run]
  by_cases he : email.isEmpty = true
  · rw [if_pos he]
    exact ⟨Nat.zero_le _, (stInv_init usageUsed 0).2⟩
  · rw [if_neg he]
    by_cases hs : subActive = true
    · rw [if_neg (not_not_intro hs)]
      by_cases hk : keyPresent = true
      · rw [if_neg (not_not_intro hk)]
        by_cases hq : max 0 (usageCap - usageUsed) ≤ 0
        · rw [if_pos hq]
          exact ⟨Nat.zero_le _, (stInv_init usageUsed 0).2⟩
        · rw [if_neg hq]
          by_cases hy : yield_level ≤ YIELD_EPS
          · simp only [if_pos hy]
            by_cases hf : (extractChunks factResponses
                (chunk_by_words text (max 300 wpc).toNat 120).length [] []
                (initState usageUsed)).1.isEmpty = true
            · rw [if_pos hf]
              have hst : stInv usageUsed 0 (extractChunks factResponses
                  (chunk_by_words text (max 300 wpc).toNat 120).length [] []
                  (initState usageUsed)).2.2 := by
                rw [extractChunks_state]
                exact stInv_calls usageUsed 0 (initState usageUsed) _
                  (stInv_init usageUsed 0)
              exact ⟨Nat.le_trans hst.1 (Nat.zero_le _), hst.2⟩
            · rw [if_neg hf]
              have hstep := exhaustive_pipeline_inv factResponses
                cardResponses usageUsed
                (chunk_by_words text (max 300 wpc).toNat 120).length
                (max 0 (usageCap - usageUsed)).toNat
              split_ifs with hz <;> exact ⟨hstep.1, hstep.2⟩
          · simp only [if_neg hy]
            by_cases ht : min (estimate_total_cards text approx_cards
                yield_level) (max 0 (usageCap - usageUsed)) ≤ 0
            · rw [if_pos ht]
              exact ⟨Nat.zero_le _, (stInv_init usageUsed 0).2⟩
            · rw [if_neg ht]
              have hstep := balanced_pipeline_inv cardResponses yield_level
                usageUsed
                (min (estimate_total_cards text approx_cards yield_level)
                  (max 0 (usageCap - usageUsed))).toNat
                (chunk_by_words text (max 300 wpc).toNat 120).length
                (chunk_targets (chunk_by_words text (max 300 wpc).toNat 120)
                  yield_level)
              split_ifs with hz <;> exact ⟨hstep.1, hstep.2⟩
      · rw [if_pos hk]
        exact ⟨Nat.zero_le _, (stInv_init usageUsed 0).2⟩
    · rw [if_pos hs]
      exact ⟨Nat.zero_le _, (stInv_init usageUsed 0).2⟩

/-- C7: with a nonempty email, an active subscription and a configured
credential, if the loaded record has `cap − cards_used ≤ 0` at gating the
run returns the quota-reached rejection with the state untouched: zero
external completion calls, the usage counter still at its loaded value,
and an empty deck. -/
theorem build_apkg_quota_gate (email : Str) (usageCap usageUsed : ℤ)
    (text : Str) (yield_level : ℚ) (approx_cards wpc : ℤ)
    (factResponses : Nat → List FactItem)
    (cardResponses : Nat → List (Option RawItem))
    (hemail : email.isEmpty = false)
    (hq : usageCap - usageUsed ≤ 0) :
    build_apkg_run email true true usageCap usageUsed text yield_level
        approx_cards wpc factResponses cardResponses =
      (.quotaReached, initState usageUsed) := by
  simp only [build_apkg_run]
  rw [if_neg (by simp [hemail])]
  rw [if_neg (by simp)]
  rw [if_neg (by simp)]
  rw [if_pos (max_le_iff.mpr ⟨le_refl (0 : ℤ), hq⟩)]

/-- C7 witness: a concrete gated run (cap 5, used 7) is rejected for
quota with the initial state returned unchanged. -/
theorem build_apkg_quota_gate_witness :
    build_apkg_run (("a").toList) true true 5 7 (("w").toList) (1/2) 10 300
        (fun _ => []) (fun _ => []) =
      (.quotaReached, initState 7) :=
  build_apkg_quota_gate (("a").toList) 5 7 (("w").toList) (1/2) 10 300
    (fun _ => []) (fun _ => []) (by decide) (by decide)

theorem sweepCall_added (cr : Nat → List (Option RawItem)) (y : ℚ)
    (total : Nat) (st : RunState) :
    (sweepCall cr y total st).1.cards_added =
      st.cards_added + (sweepCall cr y total st).2 := by
  rw [sweepCall]
  exact commitBatch_added total _ _

theorem sweepPass_progress (cr : Nat → List (Option RawItem)) (y : ℚ)
    (total : Nat) :
    ∀ (k : Nat) (st : RunState) (prog : Bool),
      st.cards_added ≤ (sweepPass cr y total k st prog).1.cards_added ∧
      ((sweepPass cr y total k st prog).2 = true →
        prog = true ∨
          st.cards_added < (sweepPass cr y total k st prog).1.cards_added) := by
  intro k
  induction k with
  | zero =>
    intro st prog
    exact ⟨le_refl _, fun h => Or.inl h⟩
  | succ k ih =>
    intro st prog
    rw [sweepPass]
    by_cases hlt : st.cards_added < total
    · rw [if_pos hlt]
      have ih1 := ih (sweepCall cr y total st).1
        (prog || decide (0 < (sweepCall cr y total st).2))
      have hadd := sweepCall_added cr y total st
      have hm := ih1.1
      constructor
      · omega
      · intro hres
        rcases ih1.2 hres with hp | hlt2
        · simp only [Bool.or_eq_true, decide_eq_true_eq] at hp
          rcases hp with h | h
          · exact Or.inl h
          · exact Or.inr (by omega)
        · exact Or.inr (by omega)
    · rw [if_neg hlt]
      exact ⟨le_refl _, fun h => Or.inl h⟩

/-- Fuel-faithfulness of the sweep embedding: once the fuel exceeds the
remaining distance to the target, its exact value is irrelevant — each
continuing iteration of the source's `while` loop made progress, so the
loop terminates within that bound and `sweepLoopFuel` computes its exact
fixpoint. -/
theorem sweepLoopFuel_sufficient (cr : Nat → List (Option RawItem)) (y : ℚ)
    (total nchunks : Nat) :
    ∀ (fuel fuel' : Nat) (st : RunState),
      total - st.cards_added < fuel → fuel ≤ fuel' →
      sweepLoopFuel cr y total nchunks fuel st =
        sweepLoopFuel cr y total nchunks fuel' st := by
  intro fuel
  induction fuel with
  | zero =>
    intro fuel' st hf hle
    exact absurd hf (Nat.not_lt_zero _)
  | succ f ih =>
    intro fuel' st hf hle
    cases fuel' with
    | zero => omega
    | succ f' =>
      by_cases hlt : st.cards_added < total
      · by_cases hpr : (sweepPass cr y total nchunks st false).2 = true
        · have el : sweepLoopFuel cr y total nchunks (f + 1) st =
              sweepLoopFuel cr y total nchunks f
                (sweepPass cr y total nchunks st false).1 := by
            rw [sweepLoopFuel, if_pos hlt, if_pos hpr]
          have er : sweepLoopFuel cr y total nchunks (f' + 1) st =
              sweepLoopFuel cr y total nchunks f'
                (sweepPass cr y total nchunks st false).1 := by
            rw [sweepLoopFuel, if_pos hlt, if_pos hpr]
          rw [el, er]
          have hp := sweepPass_progress cr y total nchunks st false
          have hca : st.cards_added <
              (sweepPass cr y total nchunks st false).1.cards_added := by
            rcases hp.2 hpr with h | h
            · exact absurd h (by simp)
            · exact h
          exact ih f' _ (by omega) (by omega)
        · have el : sweepLoopFuel cr y total nchunks (f + 1) st =
              (sweepPass cr y total nchunks st false).1 := by
            rw [sweepLoopFuel, if_pos hlt, if_neg hpr]
          have er : sweepLoopFuel cr y total nchunks (f' + 1) st =
              (sweepPass cr y total nchunks st false).1 := by
            rw [sweepLoopFuel, if_pos hlt, if_neg hpr]
          rw [el, er]
      · have el : sweepLoopFuel cr y total nchunks (f + 1) st = st := by
          rw [sweepLoopFuel, if_neg hlt]
        have er : sweepLoopFuel cr y total nchunks (f' + 1) st = st := by
          rw [sweepLoopFuel, if_neg hlt]
        rw [el, er]
